import Mathlib

/-!
Verification of the badge detection-to-inventory reconciliation pipeline of the
Scouts_InventoryOrder repository.

The Python sources are embedded shallowly over `List Char` (Python `str`),
`Int`/`Nat` (Python `int`) and `ℚ` (Python `float`: the arithmetic the claims
exercise is exact in both).  Each definition is translated from the function it
names in the comments; external library calls (rapidfuzz scorers) are modelled
from the library's documented algorithms at the call boundary.
-/

namespace ScoutsInv

/-- Python strings are modelled as character lists. -/
abbrev PyStr := List Char

/-- `pstr s` is the character-list view of a Lean string literal. -/
def pstr (s : String) : PyStr := s.data

/-! ## Python string primitives (ASCII fragment) -/

/-- Characters matched by Python's `str.split()` / `str.strip()` / `\s`
(ASCII fragment). -/
def isPySpace (c : Char) : Bool :=
  c = ' ' || c = '\t' || c = '\n' || c = '\r' || c = '\x0b' || c = '\x0c'

/-- Characters matched by Python's regex `\w` (ASCII fragment). -/
def isWordChar (c : Char) : Bool :=
  c.isAlpha || c.isDigit || c = '_'

/-- Python `str.lower` on a single character (ASCII fragment, as in CPython
for ASCII text). -/
def lowerChar (c : Char) : Char :=
  if 65 ≤ c.toNat ∧ c.toNat ≤ 90 then Char.ofNat (c.toNat + 32) else c

/-- Python `str.lower` (ASCII fragment). -/
def pyLower (l : PyStr) : PyStr := l.map lowerChar

/-- Python `str.strip()` : drop leading and trailing whitespace. -/
def trimWs (l : PyStr) : PyStr :=
  ((l.dropWhile isPySpace).reverse.dropWhile isPySpace).reverse

/-- Python `str.replace(" ", "")` : remove every space character. -/
def stripSpaces (l : PyStr) : PyStr := l.filter (· ≠ ' ')

/-- Python `old in s` substring test. -/
def containsSub (pat : PyStr) : PyStr → Bool
  | [] => pat.isPrefixOf []
  | c :: rest => pat.isPrefixOf (c :: rest) || containsSub pat rest

/-- Fuelled recursion for `replaceList` (structural on the fuel, which always
dominates the string length: every step consumes at least one character and
one unit of fuel, so the `0` fallback is unreachable from `replaceList`). -/
def replaceListF (old new : PyStr) : Nat → PyStr → PyStr
  | _, [] => []
  | 0, l => l
  | fuel + 1, c :: rest =>
    match old with
    | [] => c :: rest
    | o :: os =>
      if (o :: os).isPrefixOf (c :: rest) then
        new ++ replaceListF old new fuel ((c :: rest).drop (o :: os).length)
      else
        c :: replaceListF old new fuel rest

/-- Python `s.replace(old, new)` for a non-empty pattern `old`: replace all
non-overlapping occurrences left to right.  (The sources only ever call
`replace` with a non-empty pattern; for an empty pattern this returns `s`.) -/
def replaceList (old new : PyStr) (l : PyStr) : PyStr :=
  replaceListF old new l.length l

/-- Fuelled recursion for `pySplitWs` (the fuel dominates the string length,
so the `0` fallback is unreachable from `pySplitWs`). -/
def pySplitWsF : Nat → PyStr → List PyStr
  | _, [] => []
  | 0, _ => []
  | fuel + 1, c :: rest =>
    if isPySpace c then pySplitWsF fuel rest
    else (c :: rest.takeWhile (fun d => !isPySpace d)) ::
           pySplitWsF fuel (rest.dropWhile (fun d => !isPySpace d))

/-- Python `s.split()` : split on runs of whitespace, dropping empties. -/
def pySplitWs (l : PyStr) : List PyStr := pySplitWsF l.length l

/-- Python `" ".join(words)`. -/
def joinSpace : List PyStr → PyStr
  | [] => []
  | [w] => w
  | w :: ws => w ++ ' ' :: joinSpace ws

/-- Python `' '.join(s.split())` : collapse whitespace runs and trim. -/
def collapseWs (l : PyStr) : PyStr := joinSpace (pySplitWs l)

/-- Python `s.split(sep)` for a single-character separator (keeps empty
parts). -/
def splitChar (sep : Char) : PyStr → List PyStr
  | [] => [[]]
  | c :: rest =>
    if c = sep then [] :: splitChar sep rest
    else
      match splitChar sep rest with
      | [] => [[c]]
      | h :: t => (c :: h) :: t

/-- Decimal-digit accumulation for `pyInt`: Python `int()` accepts digit
groups separated by single underscores (`lastDigit` tracks that an underscore
must follow a digit and the literal must end in a digit). -/
def digitsVal : Nat → Bool → PyStr → Option Nat
  | acc, lastDigit, [] => if lastDigit then some acc else none
  | acc, lastDigit, c :: rest =>
    if c.isDigit then digitsVal (10 * acc + (c.toNat - 48)) true rest
    else if c = '_' && lastDigit then digitsVal acc false rest
    else none

/-- Python `int(s)` on ASCII decimal input: strip whitespace, optional sign,
digits (with underscore separators); `none` models `ValueError`. -/
def pyInt (s : PyStr) : Option Int :=
  match trimWs s with
  | '-' :: ds => (digitsVal 0 false ds).map (fun n => -(n : Int))
  | '+' :: ds => (digitsVal 0 false ds).map (fun n => (n : Int))
  | ds => (digitsVal 0 false ds).map (fun n => (n : Int))

/-! ## Badge matcher: `backend/services/badge_matcher.py` -/

/-- One entry of the badge catalog handed to `BadgeMatcherService.__init__`:
the dict key `badge_id` together with the `name` and `category` fields of
`badges[badge_id]` (`category` is read with `.get`, hence optional). -/
structure CatalogEntry where
  badge_id : PyStr
  name : PyStr
  category : Option PyStr
deriving DecidableEq, Repr

/-- The ordered replacement table of `_normalize_name` (dict iteration order =
insertion order). -/
def replacementTable : List (PyStr × PyStr) :=
  [ (pstr "oas", pstr "outdoor adventure skills")
  , (pstr "sia", pstr "special interest area")
  , (pstr "&", pstr "and")
  , (pstr "stage 1", pstr "1")
  , (pstr "stage 2", pstr "2")
  , (pstr "stage 3", pstr "3")
  , (pstr "stage 4", pstr "4")
  , (pstr "level 1", pstr "1")
  , (pstr "level 2", pstr "2") ]

/-- The sequential replacement loop of `_normalize_name`. -/
def applyReplacements (l : PyStr) : PyStr :=
  replacementTable.foldl (fun acc p => replaceList p.1 p.2 acc) l

/-- Characters kept by `re.sub(r'[^\w\s]', '', ...)`. -/
def keepChar (c : Char) : Bool := isWordChar c || isPySpace c

/-- `BadgeMatcherService._normalize_name`: lowercase, ordered replacements,
strip non-word non-space characters, collapse whitespace. -/
def normalizeName (name : PyStr) : PyStr :=
  collapseWs ((applyReplacements (pyLower name)).filter keepChar)

/-- Python `dict` assignment `m[k] = v` on an insertion-ordered association
list: overwrite in place if the key exists, else append. -/
def dictInsert (k v : PyStr) (m : List (PyStr × PyStr)) : List (PyStr × PyStr) :=
  if m.any (fun p => p.1 = k) then
    m.map (fun p => if p.1 = k then (k, v) else p)
  else m ++ [(k, v)]

/-- The `# OAS badges` block of `_build_abbreviation_map`'s loop: when the
raw name contains `"OAS"` and splits into at least two words, register
`oas{discipline}` and `oas {discipline}`. -/
def oasAbbrevs (m : List (PyStr × PyStr)) (e : CatalogEntry) : List (PyStr × PyStr) :=
  if containsSub (pstr "OAS") e.name then
    match pySplitWs e.name with
    | _ :: p1 :: _ =>
      dictInsert (pstr "oas " ++ pyLower p1) e.badge_id
        (dictInsert (pstr "oas" ++ pyLower p1) e.badge_id m)
    | _ => m
  else m

/-- The `# SIA badges` block: register the lowercased name and the name with
`"SIA"` removed. -/
def siaAbbrevs (m : List (PyStr × PyStr)) (e : CatalogEntry) : List (PyStr × PyStr) :=
  if containsSub (pstr "SIA") e.name then
    dictInsert (pyLower (trimWs (replaceList (pstr "SIA") [] e.name))) e.badge_id
      (dictInsert (pyLower e.name) e.badge_id m)
  else m

/-- The `# Milestone badges` block: register `milestone{n}` and `m{n}`. -/
def milestoneAbbrevs (m : List (PyStr × PyStr)) (e : CatalogEntry) :
    List (PyStr × PyStr) :=
  if containsSub (pstr "Milestone") e.name then
    if containsSub (pstr "1") e.name then
      dictInsert (pstr "m1") e.badge_id (dictInsert (pstr "milestone1") e.badge_id m)
    else if containsSub (pstr "2") e.name then
      dictInsert (pstr "m2") e.badge_id (dictInsert (pstr "milestone2") e.badge_id m)
    else if containsSub (pstr "3") e.name then
      dictInsert (pstr "m3") e.badge_id (dictInsert (pstr "milestone3") e.badge_id m)
    else m
  else m

/-- The per-entry body of `_build_abbreviation_map`'s loop. -/
def addEntryAbbrevs (m : List (PyStr × PyStr)) (e : CatalogEntry) :
    List (PyStr × PyStr) :=
  milestoneAbbrevs (siaAbbrevs (oasAbbrevs m e) e) e

/-- `BadgeMatcherService._build_abbreviation_map`. -/
def buildAbbreviationMap (catalog : List CatalogEntry) : List (PyStr × PyStr) :=
  catalog.foldl addEntryAbbrevs []

/-- `BadgeMatcherService._check_abbreviation`: strip spaces and lowercase the
detected name, return the badge id of the first registered abbreviation whose
space-stripped key matches exactly. -/
def checkAbbreviation (abbrevs : List (PyStr × PyStr)) (detected : PyStr) :
    Option PyStr :=
  let normalized := stripSpaces (pyLower detected)
  (abbrevs.find? (fun p => stripSpaces p.1 = normalized)).map (fun p => p.2)

/-! ### rapidfuzz scorer models

The matcher calls `rapidfuzz.fuzz.{token_sort_ratio, token_set_ratio,
partial_ratio}`.  These are external library calls; they are modelled here
from the library's documented algorithms: normalized InDel similarity
(`fuzzRatio`), the same on whitespace-split sorted tokens
(`tokenSortRatio`), the token-set max-of-ratios construction
(`tokenSetRatio`), and the best-window alignment (`partRatio`). -/

/-- Fuelled recursion for the InDel distance (structural on the fuel, which
always dominates the total length of the two strings, so the `0` fallback is
unreachable from `indel`). -/
def indelF : Nat → List Char → List Char → Nat
  | _, [], ys => ys.length
  | _, x :: xs, [] => (x :: xs).length
  | 0, _, _ => 0
  | fuel + 1, x :: xs, y :: ys =>
    if x = y then indelF fuel xs ys
    else 1 + Nat.min (indelF fuel xs (y :: ys)) (indelF fuel (x :: xs) ys)

/-- InDel distance (Levenshtein restricted to insertions and deletions), the
metric underlying `rapidfuzz.fuzz.ratio`. -/
def indel (a b : List Char) : Nat := indelF (a.length + b.length) a b

/-- Python `min` on two rationals (kernel-reducible). -/
def pyMin (a b : ℚ) : ℚ := if a ≤ b then a else b

/-- Python `max` on two rationals (kernel-reducible). -/
def pyMax (a b : ℚ) : ℚ := if a < b then b else a

/-- `rapidfuzz.fuzz.ratio`: normalized InDel similarity scaled to 0–100 (100
when both strings are empty). -/
def fuzzRatio (a b : PyStr) : ℚ :=
  if a.length + b.length = 0 then 100
  else 100 * (1 - (indel a b : ℚ) / ((a.length : ℚ) + (b.length : ℚ)))

/-- Lexicographic comparison of strings by code point (Python `<=` on `str`),
as a Bool. -/
def strLe : PyStr → PyStr → Bool
  | [], _ => true
  | _ :: _, [] => false
  | x :: xs, y :: ys => if x = y then strLe xs ys else decide (x < y)

/-- Stable insertion of a string into a sorted list (Python `sorted`). -/
def insertSorted (w : PyStr) : List PyStr → List PyStr
  | [] => [w]
  | x :: xs => if strLe w x then w :: x :: xs else x :: insertSorted w xs

/-- Python `sorted` on a list of strings. -/
def sortStrs (l : List PyStr) : List PyStr := l.foldr insertSorted []

/-- `rapidfuzz.fuzz.token_sort_ratio`: `ratio` on the whitespace-split,
sorted, space-joined token lists. -/
def tokenSortRatio (a b : PyStr) : ℚ :=
  fuzzRatio (joinSpace (sortStrs (pySplitWs a))) (joinSpace (sortStrs (pySplitWs b)))

/-- First-occurrence deduplication (Python `set` membership, ordered for
determinism before sorting). -/
def dedupStrs (l : List PyStr) : List PyStr :=
  l.foldl (fun acc w => if w ∈ acc then acc else acc ++ [w]) []

/-- `rapidfuzz.fuzz.token_set_ratio`: compare the sorted unique-token
intersection against each side's intersection-plus-difference, and the two
sides against each other, taking the maximum ratio (100 as soon as the
intersection is non-empty and one difference is empty). -/
def tokenSetRatio (a b : PyStr) : ℚ :=
  let ta := sortStrs (dedupStrs (pySplitWs a))
  let tb := sortStrs (dedupStrs (pySplitWs b))
  let sect := ta.filter (fun t => t ∈ tb)
  let da := ta.filter (fun t => t ∉ tb)
  let db := tb.filter (fun t => t ∉ ta)
  if sect ≠ [] ∧ (da = [] ∨ db = []) then 100
  else
    let sectS := joinSpace sect
    let sAB := joinSpace (sect ++ da)
    let sBA := joinSpace (sect ++ db)
    pyMax (fuzzRatio sectS sAB) (pyMax (fuzzRatio sectS sBA) (fuzzRatio sAB sBA))

/-- All contiguous windows of length `n` of `hay`. -/
def strWindows (n : Nat) (hay : PyStr) : List PyStr :=
  (List.range (hay.length - n + 1)).map (fun i => (hay.drop i).take n)

/-- `rapidfuzz.fuzz.partial_ratio`: best `ratio` of the shorter string against
the same-length windows of the longer string. -/
def partRatio (a b : PyStr) : ℚ :=
  let p := if a.length ≤ b.length then (a, b) else (b, a)
  (strWindows p.1.length p.2).foldl (fun acc w => pyMax acc (fuzzRatio p.1 w)) 0

/-! ### `match_badge_name` -/

/-- The `BadgeMatch` dataclass. -/
structure BadgeMatch where
  badge_id : PyStr
  badge_name : PyStr
  detected_name : PyStr
  match_score : ℚ
  confidence_score : ℚ
  matched : Bool
  category : Option PyStr
deriving DecidableEq, Repr

/-- The weighted blend of the three scorer results with the optional
category-hint boost, for one catalog entry (`match_badge_name`'s loop body). -/
def entryScore (boost : ℚ) (categoryHint : Option PyStr) (nd : PyStr)
    (e : CatalogEntry) : ℚ :=
  let nn := normalizeName e.name
  let score := tokenSortRatio nd nn * (1/2) + tokenSetRatio nd nn * (3/10)
      + partRatio nd nn * (1/5)
  match categoryHint with
  | some h =>
    if containsSub (pyLower h) (pyLower (e.category.getD [])) then score + boost
    else score
  | none => score

/-- The best-score fold of `match_badge_name` (starting from `best_score=0.0`,
`best_match=None`, updating on strictly greater scores). -/
def fuzzyBest (badges : List CatalogEntry) (boost : ℚ) (categoryHint : Option PyStr)
    (nd : PyStr) : ℚ × Option CatalogEntry :=
  badges.foldl
    (fun acc e =>
      let score := entryScore boost categoryHint nd e
      if score > acc.1 then (score, some e) else acc)
    (0, none)

/-- The fuzzy-scan part of `BadgeMatcherService.match_badge_name` (reached
when the abbreviation check yields nothing truthy): normalize the detected
name, fold the scorer over the catalog, compare against the threshold and
blend the confidences.  The Python truthiness test
`self.badges[best_match] if best_match else None` treats an empty badge id
like `None`, hence the explicit `= []` check. -/
def fuzzyMatchResult (badges : List CatalogEntry) (minMatchScore boost : ℚ)
    (detected : PyStr) (ollamaConf : ℚ) (categoryHint : Option PyStr) : BadgeMatch :=
  let nd := normalizeName detected
  let best := fuzzyBest badges boost categoryHint nd
  let matched := decide (best.1 ≥ minMatchScore)
  let combined := ollamaConf * (2/5) + best.1 / 100 * (3/5)
  match best.2 with
  | some e =>
    if e.badge_id = [] then ⟨[], [], detected, best.1, combined, false, none⟩
    else if matched then ⟨e.badge_id, e.name, detected, best.1, combined, true, e.category⟩
    else ⟨[], [], detected, best.1, combined, false, none⟩
  | none => ⟨[], [], detected, best.1, combined, false, none⟩

/-- `BadgeMatcherService.match_badge_name`.  `none` models the (unreachable)
`KeyError` of `self.badges[abbrev_match]`.  The Python truthiness test
`if abbrev_match:` treats the empty string like `None`, hence the explicit
`= []` check. -/
def matchBadgeName (badges : List CatalogEntry) (minMatchScore boost : ℚ)
    (detected : PyStr) (ollamaConf : ℚ) (categoryHint : Option PyStr) :
    Option BadgeMatch :=
  match checkAbbreviation (buildAbbreviationMap badges) detected with
  | some bid =>
    if bid = [] then some (fuzzyMatchResult badges minMatchScore boost detected ollamaConf categoryHint)
    else
      match badges.find? (fun e => e.badge_id = bid) with
      | some e =>
        some ⟨bid, e.name, detected, 100, pyMin (ollamaConf * (11/10)) 1, true, e.category⟩
      | none => none
  | none => some (fuzzyMatchResult badges minMatchScore boost detected ollamaConf categoryHint)

/-! ## Detection parser: `backend/services/badge_recognition.py` -/

/-- The `BadgeDetection` dataclass of `badge_recognition.py` (the spec's
`RawDetection`).  `count` is an `Int` because Format 1 parses it with
Python `int()`, which accepts signed values. -/
structure RawDetection where
  badge_name : PyStr
  count : Int
  confidence : PyStr
  confidence_score : ℚ
deriving DecidableEq, Repr

/-- `BadgeRecognitionService._confidence_to_score`. -/
def confidenceToScore (c : PyStr) : ℚ :=
  if pyLower c = pstr "high" then 9/10
  else if pyLower c = pstr "medium" then 3/4
  else if pyLower c = pstr "low" then 1/2
  else 3/5

/-- Value of an all-digit group (`int` applied to a `\d+` regex group). -/
def digitsToNat (ds : PyStr) : Nat :=
  ds.foldl (fun acc c => 10 * acc + (c.toNat - 48)) 0

/-- Format 1 of `_parse_response`: `Badge Name | Count | Confidence`.
Split on pipes, trim, need at least three fields, parse the count with
`int()` (`ValueError` skips the line). -/
def parseFormat1 (line : PyStr) : List RawDetection :=
  match (splitChar '|' line).map trimWs with
  | name :: cnt :: conf :: _ =>
    match pyInt cnt with
    | some n =>
      let confidence := pyLower conf
      [⟨name, n, confidence, confidenceToScore confidence⟩]
    | none => []
  | _ => []

/-- The part of the Format 2 pattern `(.+?):\s*(\d+)\s*\((\w+)\)` after the
colon: optional spaces, digits, optional spaces, `(word)`. -/
def parseColonTail (r : PyStr) : Option (Nat × PyStr) :=
  let r1 := r.dropWhile isPySpace
  let ds := r1.takeWhile Char.isDigit
  if ds = [] then none
  else
    match (r1.drop ds.length).dropWhile isPySpace with
    | '(' :: r3 =>
      let w := r3.takeWhile isWordChar
      if w = [] then none
      else
        match r3.drop w.length with
        | ')' :: _ => some (digitsToNat ds, w)
        | _ => none
    | _ => none

/-- Leftmost-lazy search for Format 2 (`re.search` with a lazy `(.+?)` group:
the shortest non-empty prefix followed by a colon whose tail parses). -/
def parseFormat2Aux (acc : PyStr) : PyStr → Option (PyStr × Nat × PyStr)
  | [] => none
  | c :: rest =>
    if c = ':' && !acc.isEmpty then
      match parseColonTail rest with
      | some (n, w) => some (trimWs acc, n, w)
      | none => parseFormat2Aux (acc ++ [c]) rest
    else parseFormat2Aux (acc ++ [c]) rest

/-- Format 2 of `_parse_response`: `Badge Name: Count (confidence)`. -/
def parseFormat2 (line : PyStr) : List RawDetection :=
  match parseFormat2Aux [] line with
  | some (name, n, w) =>
    let confidence := pyLower w
    [⟨name, (n : Int), confidence, confidenceToScore confidence⟩]
  | none => []

/-- `(?:\s|$)` : next character is whitespace, or end of string. -/
def spaceOrEnd : PyStr → Bool
  | [] => true
  | c :: _ => isPySpace c

/-- Remainders allowed by the optional group `(?:\s+badge)?` (case
insensitive). -/
def optBadgeSuffix (r : PyStr) : List PyStr :=
  let sp := r.takeWhile isPySpace
  let r2 := r.drop sp.length
  if sp ≠ [] ∧ pyLower (r2.take 5) = pstr "badge" then [r, r2.drop 5] else [r]

/-- Remainders allowed by the optional group `(?:s)?` (case insensitive). -/
def optSSuffix : PyStr → List PyStr
  | [] => [[]]
  | c :: rest => if lowerChar c = 's' then [c :: rest, rest] else [c :: rest]

/-- Whether the text after the lazy name group satisfies
`(?:\s+badge)?(?:s)?(?:\s|$)`. -/
def afterNameOk (r : PyStr) : Bool :=
  (optBadgeSuffix r).any (fun r1 => (optSSuffix r1).any spaceOrEnd)

/-- Lazy `(.+?)` name group of Format 3: the shortest non-empty prefix whose
remainder satisfies `afterNameOk`. -/
def lazyNameAux (acc : PyStr) : PyStr → Option PyStr
  | [] => none
  | c :: rest =>
    if afterNameOk rest then some (acc ++ [c]) else lazyNameAux (acc ++ [c]) rest

/-- Attempt the Format 3 pattern `(\d+)\s*x?\s+(.+?)(?:\s+badge)?(?:s)?(?:\s|$)`
at a position starting with a digit: digits, then the `\s*x?\s+` gap, then the
lazy name group. -/
def tryFormat3At (l : PyStr) : Option (Nat × PyStr) :=
  let ds := l.takeWhile Char.isDigit
  if ds = [] then none
  else
    let r1 := l.drop ds.length
    let sp1 := r1.takeWhile isPySpace
    let region : Option PyStr :=
      match r1.drop sp1.length with
      | c :: r3 =>
        if lowerChar c = 'x' then
          let sp2 := r3.takeWhile isPySpace
          if sp2 ≠ [] then some (r3.drop sp2.length)
          else if sp1 ≠ [] then some (c :: r3) else none
        else if sp1 ≠ [] then some (c :: r3) else none
      | [] => none
    match region with
    | some reg => (lazyNameAux [] reg).map (fun nm => (digitsToNat ds, trimWs nm))
    | none => none

/-- `re.search` scan for Format 3: try every start position left to right (a
match must start with a digit). -/
def parseFormat3Scan : PyStr → Option (Nat × PyStr)
  | [] => none
  | c :: rest =>
    if c.isDigit then
      match tryFormat3At (c :: rest) with
      | some res => some res
      | none => parseFormat3Scan rest
    else parseFormat3Scan rest

/-- Format 3 of `_parse_response`: natural language such as
`3 OAS Bushcraft badges`; medium confidence is assigned. -/
def parseFormat3 (line : PyStr) : List RawDetection :=
  match parseFormat3Scan line with
  | some (n, name) => [⟨name, (n : Int), pstr "medium", 3/4⟩]
  | none => []

/-- Per-line dispatch of `_parse_response`: strip, skip blanks and `#`
comments, then pipe form, colon form, natural-language form. -/
def parseLine (raw : PyStr) : List RawDetection :=
  let line := trimWs raw
  if line = [] then []
  else if line.take 1 = pstr "#" then []
  else if line.contains '|' then parseFormat1 line
  else if line.contains ':' then parseFormat2 line
  else parseFormat3 line

/-- `BadgeRecognitionService._parse_response`: strip the response, split into
lines, parse each line, concatenate in order. -/
def parseResponse (response : PyStr) : List RawDetection :=
  (splitChar '\n' (trimWs response)).foldr (fun l acc => parseLine l ++ acc) []

/-! ## Inventory reconciler: `backend/api/inventory.py` -/

/-- An `InventoryAdjustment` row. -/
structure AdjRecord where
  badge_id : PyStr
  old_quantity : Int
  new_quantity : Int
  adjustment : Int
  reason : PyStr
  scan_id : Option Nat
deriving DecidableEq, Repr

/-- The persistent state the inventory endpoints touch: quantities per badge
id and the append-only audit log. -/
structure InvState where
  inventories : List (PyStr × Int)
  adjustments : List AdjRecord
deriving DecidableEq, Repr

/-- The errors of `manual_inventory_adjustment`: 404 for a missing
badge/inventory row, 400 for an adjustment that would go negative. -/
inductive AdjError
  | badgeNotFound
  | negativeQuantity
deriving DecidableEq, Repr

/-- First value bound to a key in an association list (the `.first()` row of
the SQL `filter` query). -/
def lookupVal (m : List (PyStr × Int)) (b : PyStr) : Option Int :=
  match m with
  | [] => none
  | p :: rest => if p.1 = b then some p.2 else lookupVal rest b

/-- Quantity currently stored for a badge id. -/
def lookupQty (st : InvState) (bid : PyStr) : Option Int :=
  lookupVal st.inventories bid

/-- `manual_inventory_adjustment` (the spec's `applyAdjustment`): look the
badge up (404 otherwise), validate `old + adjustment ≥ 0` (400 otherwise,
rollback leaves the state unchanged), else write the new quantity and exactly
one `InventoryAdjustment` row in the same transaction.  Returns the new state
with the `(old_quantity, new_quantity)` response. -/
def applyManualAdjustment (st : InvState) (bid : PyStr) (adj : Int)
    (reason : PyStr) : InvState × Except AdjError (Int × Int) :=
  match lookupQty st bid with
  | none => (st, .error .badgeNotFound)
  | some oldq =>
    let newq := oldq + adj
    if newq < 0 then (st, .error .negativeQuantity)
    else
      ({ inventories := st.inventories.map (fun p => if p.1 = bid then (p.1, newq) else p)
       , adjustments := st.adjustments ++ [⟨bid, oldq, newq, adj, reason, none⟩] },
       .ok (oldq, newq))

/-- A sequence of `manual_inventory_adjustment` calls (each request is
`(badge_id, adjustment, reason)`). -/
def runAdjustments (st : InvState) (reqs : List (PyStr × Int × PyStr)) : InvState :=
  reqs.foldl (fun s r => (applyManualAdjustment s r.1 r.2.1 r.2.2).1) st

/-- One iteration of the `badge_quantities` aggregation dict of
`update_inventory_from_scan`: initialise an absent badge key, then add the
detection's quantity to it. -/
def aggregateStep (acc : List (PyStr × Int)) (d : PyStr × Int) : List (PyStr × Int) :=
  if acc.any (fun p => p.1 = d.1) then
    acc.map (fun p => if p.1 = d.1 then (p.1, p.2 + d.2) else p)
  else acc ++ [(d.1, d.2)]

/-- The `badge_quantities` aggregation dict of `update_inventory_from_scan`:
group the scan's detection rows by badge id, summing quantities. -/
def aggregateDetections (dets : List (PyStr × Int)) : List (PyStr × Int) :=
  dets.foldl aggregateStep []

/-- `update_inventory_from_scan` (the spec's `reconcileFromScan`) on a
completed scan: join the detection rows to badges that have an inventory row,
aggregate by badge id, build one update per distinct badge
(`(badge_id, quantity_detected, old_quantity, new_quantity)`), and when
`apply_adjustments` is set, write each new quantity plus exactly one
`InventoryAdjustment` row per update. -/
def updateFromScan (st : InvState) (scanId : Nat) (dets : List (PyStr × Int))
    (applyAdj : Bool) : InvState × List (PyStr × Int × Int × Int) :=
  let joined := dets.filter (fun d => (lookupQty st d.1).isSome)
  let agg := aggregateDetections joined
  let updates := agg.map (fun p =>
    let oldq := (lookupQty st p.1).getD 0
    (p.1, p.2, oldq, oldq + p.2))
  let st' :=
    if applyAdj then
      updates.foldl
        (fun s u =>
          { inventories := s.inventories.map (fun q => if q.1 = u.1 then (q.1, u.2.2.2) else q)
          , adjustments := s.adjustments ++
              [⟨u.1, u.2.2.1, u.2.2.2, u.2.1, pstr "Updated from scan #" ++ (Nat.repr scanId).data, some scanId⟩] })
        st
    else st
  (st', updates)

/-! ## Scan processor: `backend/api/processing.py` -/

/-- Scan / image statuses (`ScanStatus`). -/
inductive ScanSt
  | pending
  | processing
  | completed
  | failed
deriving DecidableEq, Repr

/-- How processing one image ends inside `process_scan_background`'s loop:
success, a reported vision-detection failure, or a caught exception. -/
inductive ImgOutcome
  | success
  | visionFailed
  | exception
deriving DecidableEq, Repr

/-- Whether the image's final status is `failed` (the two branches that
increment `failed_images`). -/
def imageFailed : ImgOutcome → Bool
  | .success => false
  | .visionFailed => true
  | .exception => true

/-- The final-status computation at the end of `process_scan_background`:
`failed` iff every image failed, otherwise `completed` (both the partial
success and the all-success branch assign `COMPLETED`). -/
def finalScanStatus (outcomes : List ImgOutcome) : ScanSt :=
  let failedImages := (outcomes.filter imageFailed).length
  if failedImages = outcomes.length then .failed
  else if failedImages > 0 then .completed
  else .completed

/-- The rejection errors of the `start_processing` endpoint. -/
inductive StartError
  | alreadyProcessing
  | alreadyCompleted
  | noImages
deriving DecidableEq, Repr

/-- The guard sequence of `start_processing`: 409 when the scan is already
processing or completed, 400 when it has no images, else accepted. -/
def startProcessingGuard (st : ScanSt) (totalImages : Nat) : Option StartError :=
  if st = .processing then some .alreadyProcessing
  else if st = .completed then some .alreadyCompleted
  else if totalImages = 0 then some .noImages
  else none

/-! ## Association-list toolkit -/

/-- Looking a key up after an in-place value update. -/
theorem lookupVal_mapUpdate (m : List (PyStr × Int)) (k b : PyStr) (f : Int → Int) :
    lookupVal (m.map (fun p => if p.1 = k then (p.1, f p.2) else p)) b =
      if k = b then (lookupVal m b).map f else lookupVal m b := by
  induction m with
  | nil => by_cases h : k = b <;> simp [lookupVal, h]
  | cons q m ih =>
    by_cases hqk : q.1 = k <;> by_cases hqb : q.1 = b
    · have hkb : k = b := hqk.symm.trans hqb
      simp [lookupVal, hqk, hqb, hkb]
    · have hkb : ¬ k = b := fun h => hqb (hqk.trans h)
      have hbk : ¬ b = k := fun h => hkb h.symm
      simp [lookupVal, hqk, hqb, hkb, hbk, ih]
    · have hkb : ¬ k = b := fun h => hqk (hqb.trans h.symm)
      have hbk : ¬ b = k := fun h => hkb h.symm
      simp [lookupVal, hqk, hqb, hkb, hbk]
    · simp [lookupVal, hqk, hqb, ih]

/-- Looking a key up after appending a binding at the end. -/
theorem lookupVal_append (m : List (PyStr × Int)) (k b : PyStr) (v : Int) :
    lookupVal (m ++ [(k, v)]) b =
      match lookupVal m b with
      | some w => some w
      | none => if k = b then some v else none := by
  induction m with
  | nil => by_cases h : k = b <;> simp [lookupVal, h]
  | cons q m ih =>
    by_cases hqb : q.1 = b
    · simp [lookupVal, hqb]
    · simp only [List.cons_append, lookupVal, hqb, if_false]
      exact ih

/-- Key presence as `any` agrees with `lookupVal`. -/
theorem any_key_eq_isSome (m : List (PyStr × Int)) (k : PyStr) :
    m.any (fun p => p.1 = k) = (lookupVal m k).isSome := by
  induction m with
  | nil => simp [lookupVal]
  | cons q m ih =>
    by_cases hqk : q.1 = k
    · simp [lookupVal, hqk]
    · simp only [List.any_cons, lookupVal, hqk, decide_eq_false hqk, Bool.false_or, if_false]
      exact ih

/-! ## C1: non-negative inventory invariant -/

/-- One `manual_inventory_adjustment` call preserves non-negativity of all
stored quantities. -/
theorem applyManualAdjustment_preserves_nonneg (st : InvState) (bid : PyStr)
    (adj : Int) (reason : PyStr) (hst : ∀ p ∈ st.inventories, 0 ≤ p.2) :
    ∀ p ∈ (applyManualAdjustment st bid adj reason).1.inventories, 0 ≤ p.2 := by
  unfold applyManualAdjustment
  cases h : lookupQty st bid with
  | none => simpa using hst
  | some oldq =>
    by_cases hneg : oldq + adj < 0
    · simpa [hneg] using hst
    · simp only [hneg, if_false]
      intro p hp
      simp only [List.mem_map] at hp
      obtain ⟨q, hq, hpq⟩ := hp
      by_cases hqb : q.1 = bid
      · subst hpq
        simp only [hqb, if_true, if_pos]
        omega
      · subst hpq
        simp only [hqb, if_false, if_neg]
        exact hst q hq

/-- <b>C1</b>: for every sequence of `applyAdjustment`
(`manual_inventory_adjustment`) calls on a state whose quantities are
non-negative, every observed quantity stays non-negative; a call with
`old_quantity + delta < 0` is rejected with a validation error leaving the
whole state (quantities and audit log) unchanged; a successful call sets
`quantity = old_quantity + delta ≥ 0` and appends exactly one
`InventoryAdjustment` record; concretely, quantity 5 with delta −10 is
rejected and the state is unchanged. -/
theorem applyAdjustment_nonneg_invariant (st : InvState)
    (hst : ∀ p ∈ st.inventories, 0 ≤ p.2) :
    (∀ reqs, ∀ p ∈ (runAdjustments st reqs).inventories, 0 ≤ p.2) ∧
    (∀ bid adj reason oldq, lookupQty st bid = some oldq →
      (oldq + adj < 0 →
        applyManualAdjustment st bid adj reason = (st, .error .negativeQuantity)) ∧
      (0 ≤ oldq + adj → ∃ st',
        applyManualAdjustment st bid adj reason = (st', .ok (oldq, oldq + adj)) ∧
        lookupQty st' bid = some (oldq + adj) ∧ 0 ≤ oldq + adj ∧
        st'.adjustments = st.adjustments ++ [⟨bid, oldq, oldq + adj, adj, reason, none⟩])) ∧
    applyManualAdjustment ⟨[(pstr "badge", 5)], []⟩ (pstr "badge") (-10) (pstr "correction")
      = (⟨[(pstr "badge", 5)], []⟩, .error .negativeQuantity) := by
  refine ⟨?_, ?_, by with_unfolding_all rfl⟩
  · intro reqs
    induction reqs generalizing st with
    | nil => exact hst
    | cons r reqs ih =>
      exact ih _ (applyManualAdjustment_preserves_nonneg st r.1 r.2.1 r.2.2 hst)
  · intro bid adj reason oldq hold
    constructor
    · intro hneg
      unfold applyManualAdjustment
      rw [hold]
      simp [hneg]
    · intro hpos
      have hneg : ¬ (oldq + adj < 0) := by omega
      refine ⟨⟨st.inventories.map (fun p => if p.1 = bid then (p.1, oldq + adj) else p),
          st.adjustments ++ [⟨bid, oldq, oldq + adj, adj, reason, none⟩]⟩, ?_, ?_, hpos, rfl⟩
      · unfold applyManualAdjustment
        rw [hold]
        simp [hneg]
      · unfold lookupQty at hold ⊢
        show lookupVal (st.inventories.map (fun p => if p.1 = bid then (p.1, oldq + adj) else p))
          bid = some (oldq + adj)
        rw [lookupVal_mapUpdate st.inventories bid bid (fun _ => oldq + adj), if_pos rfl, hold]
        rfl

/-- Witness for C1 at a concrete state. -/
theorem applyAdjustment_nonneg_invariant_w :
    applyManualAdjustment ⟨[(pstr "badge", 5)], []⟩ (pstr "badge") (-10) (pstr "correction")
      = (⟨[(pstr "badge", 5)], []⟩, .error .negativeQuantity) :=
  (applyAdjustment_nonneg_invariant ⟨[(pstr "badge", 5)], []⟩ (by decide)).2.2

/-! ## C2: detection aggregation -/

/-- Total detected quantity of one badge across a detection list. -/
def sumDets (dets : List (PyStr × Int)) (b : PyStr) : Int :=
  ((dets.filter (fun d => d.1 = b)).map (fun d => d.2)).sum

/-- Membership among the keys agrees with `lookupVal`. -/
theorem mem_keys_iff_lookup_isSome (m : List (PyStr × Int)) (b : PyStr) :
    b ∈ m.map Prod.fst ↔ (lookupVal m b).isSome := by
  induction m with
  | nil => simp [lookupVal]
  | cons q m ih =>
    by_cases hqb : q.1 = b
    · simp [lookupVal, hqb]
    · have hbq : ¬ b = q.1 := fun h => hqb h.symm
      simp only [List.map_cons, List.mem_cons, lookupVal, hqb, if_false, hbq, false_or]
      exact ih

/-- With pairwise-distinct keys, a stored pair is the lookup result. -/
theorem lookup_eq_of_mem_nodup (m : List (PyStr × Int)) (b : PyStr) (q : Int)
    (hnd : (m.map Prod.fst).Nodup) (hm : (b, q) ∈ m) : lookupVal m b = some q := by
  induction m with
  | nil => cases hm
  | cons p m ih =>
    rcases List.mem_cons.mp hm with hh | ht
    · rw [← hh]
      simp [lookupVal]
    · rw [List.map_cons] at hnd
      have hnd' := List.nodup_cons.mp hnd
      by_cases hpb : p.1 = b
      · exfalso
        have hbkeys : b ∈ m.map Prod.fst := List.mem_map.mpr ⟨(b, q), ht, rfl⟩
        exact hnd'.1 (hpb ▸ hbkeys)
      · simp only [lookupVal, hpb, if_false]
        exact ih hnd'.2 ht

/-- Aggregating onto an accumulator that already binds `b` to `v` yields
`v` plus the summed quantities of `b`. -/
theorem aggregate_fold_lookup_some (dets : List (PyStr × Int)) :
    ∀ acc v, lookupVal acc b = some v →
      lookupVal (dets.foldl aggregateStep acc) b = some (v + sumDets dets b) := by
  induction dets with
  | nil =>
    intro acc v h
    simp [sumDets, h]
  | cons d rest ih =>
    intro acc v h
    rw [List.foldl_cons]
    by_cases hd : d.1 = b
    · have hany : acc.any (fun p => p.1 = d.1) = true := by
        rw [any_key_eq_isSome, hd, h]
        rfl
      have hstep : lookupVal (aggregateStep acc d) b = some (v + d.2) := by
        unfold aggregateStep
        rw [if_pos hany, lookupVal_mapUpdate acc d.1 b (fun x => x + d.2), if_pos hd, h]
        rfl
      rw [ih _ _ hstep]
      have hsum : sumDets (d :: rest) b = d.2 + sumDets rest b := by simp [sumDets, hd]
      rw [hsum, add_assoc]
    · have hstep : lookupVal (aggregateStep acc d) b = some v := by
        unfold aggregateStep
        by_cases hany : acc.any (fun p => p.1 = d.1)
        · rw [if_pos hany, lookupVal_mapUpdate acc d.1 b (fun x => x + d.2), if_neg hd, h]
        · rw [if_neg hany, lookupVal_append acc d.1 b d.2, h]
      rw [ih _ _ hstep]
      have hsum : sumDets (d :: rest) b = sumDets rest b := by simp [sumDets, hd]
      rw [hsum]

/-- Aggregating onto an accumulator that does not bind `b` yields the summed
quantities of `b` when `b` occurs among the detections, nothing otherwise. -/
theorem aggregate_fold_lookup_none (dets : List (PyStr × Int)) :
    ∀ acc, lookupVal acc b = none →
      lookupVal (dets.foldl aggregateStep acc) b =
        if b ∈ dets.map Prod.fst then some (sumDets dets b) else none := by
  induction dets with
  | nil =>
    intro acc h
    simpa using h
  | cons d rest ih =>
    intro acc h
    rw [List.foldl_cons]
    by_cases hd : d.1 = b
    · have hany : acc.any (fun p => p.1 = d.1) = false := by
        rw [any_key_eq_isSome, hd, h]
        rfl
      have hstep : lookupVal (aggregateStep acc d) b = some d.2 := by
        unfold aggregateStep
        rw [hany, if_neg (by simp), lookupVal_append acc d.1 b d.2, h]
        simp [hd]
      rw [aggregate_fold_lookup_some rest _ _ hstep]
      have hmem : b ∈ (d :: rest).map Prod.fst := by simp [hd]
      rw [if_pos hmem]
      have hsum : sumDets (d :: rest) b = d.2 + sumDets rest b := by simp [sumDets, hd]
      rw [hsum]
    · have hstep : lookupVal (aggregateStep acc d) b = none := by
        unfold aggregateStep
        by_cases hany : acc.any (fun p => p.1 = d.1)
        · rw [if_pos hany, lookupVal_mapUpdate acc d.1 b (fun x => x + d.2), if_neg hd, h]
        · rw [if_neg hany, lookupVal_append acc d.1 b d.2, h]
          simp [hd]
      rw [ih _ hstep]
      have hsum : sumDets (d :: rest) b = sumDets rest b := by simp [sumDets, hd]
      have hmem : (b ∈ (d :: rest).map Prod.fst) = (b ∈ rest.map Prod.fst) := by
        simp only [List.map_cons, List.mem_cons, eq_iff_iff]
        exact ⟨fun h' => h'.resolve_left (fun he => hd he.symm), Or.inr⟩
      rw [hsum]
      simp only [hmem]

/-- The aggregation fold keeps keys pairwise distinct. -/
theorem aggregate_fold_nodup (dets : List (PyStr × Int)) :
    ∀ acc, (acc.map Prod.fst).Nodup →
      ((dets.foldl aggregateStep acc).map Prod.fst).Nodup := by
  induction dets with
  | nil => exact fun acc h => h
  | cons d rest ih =>
    intro acc hnd
    rw [List.foldl_cons]
    apply ih
    unfold aggregateStep
    by_cases hany : acc.any (fun p => p.1 = d.1)
    · rw [if_pos hany]
      have : (acc.map (fun p => if p.1 = d.1 then (p.1, p.2 + d.2) else p)).map Prod.fst
          = acc.map Prod.fst := by
        rw [List.map_map]
        apply List.map_congr_left
        intro p _
        by_cases hp : p.1 = d.1 <;> simp [hp]
      rw [this]
      exact hnd
    · rw [if_neg hany, List.map_append, List.nodup_append]
      refine ⟨hnd, by simp, ?_⟩
      intro x hx hx'
      simp only [List.map_cons, List.map_nil, List.mem_singleton] at hx'
      subst hx'
      obtain ⟨p, hp, hpx⟩ := List.mem_map.mp hx
      have : acc.any (fun p => p.1 = d.1) = true :=
        List.any_eq_true.mpr ⟨p, hp, by simp [hpx]⟩
      exact hany this

/-- Summing a badge's quantities over the inventory-joined detections equals
summing over all detections, provided that badge has an inventory row. -/
theorem sumDets_filter_key (st : InvState) (dets : List (PyStr × Int)) (b : PyStr)
    (hsome : (lookupQty st b).isSome) :
    sumDets (dets.filter (fun d => (lookupQty st d.1).isSome)) b = sumDets dets b := by
  unfold sumDets
  rw [List.filter_filter]
  have hfe : List.filter (fun a => decide (a.1 = b) && (lookupQty st a.1).isSome) dets
      = List.filter (fun d => decide (d.1 = b)) dets := by
    apply List.filter_congr
    intro d _
    by_cases hd : d.1 = b
    · rw [hd]
      simp [hsome]
    · simp [hd]
  rw [hfe]

/-- The application fold of `update_inventory_from_scan` appends exactly one
`InventoryAdjustment` row per update, in order. -/
theorem updates_fold_adjustments (scanId : Nat)
    (us : List (PyStr × Int × Int × Int)) :
    ∀ s : InvState,
      (us.foldl
        (fun s u =>
          { inventories := s.inventories.map (fun q => if q.1 = u.1 then (q.1, u.2.2.2) else q)
          , adjustments := s.adjustments ++
              [⟨u.1, u.2.2.1, u.2.2.2, u.2.1,
                pstr "Updated from scan #" ++ (Nat.repr scanId).data, some scanId⟩] })
        s).adjustments =
      s.adjustments ++ us.map
        (fun u => ⟨u.1, u.2.2.1, u.2.2.2, u.2.1,
          pstr "Updated from scan #" ++ (Nat.repr scanId).data, some scanId⟩) := by
  induction us with
  | nil => intro s; simp
  | cons u us ih =>
    intro s
    rw [List.foldl_cons, ih]
    simp

/-- <b>C2</b>: `reconcileFromScan` (`update_inventory_from_scan`) aggregates
the scan's persisted detection rows by badge id, summing quantities, and
produces exactly one combined update (and, when applying, exactly one
`InventoryAdjustment` row) per distinct badge; in particular detections
[2, 3, 1] of one badge yield the single combined adjustment +6. -/
theorem reconcileFromScan_aggregates (st : InvState) (scanId : Nat)
    (dets : List (PyStr × Int)) (applyAdj : Bool) :
    ((updateFromScan st scanId dets applyAdj).2.map (fun u => u.1)).Nodup ∧
    (∀ b, (∃ u ∈ (updateFromScan st scanId dets applyAdj).2, u.1 = b) ↔
      ((lookupQty st b).isSome ∧ ∃ q, (b, q) ∈ dets)) ∧
    (∀ u ∈ (updateFromScan st scanId dets applyAdj).2,
      u.2.1 = sumDets dets u.1 ∧ u.2.2.2 = u.2.2.1 + u.2.1) ∧
    ((updateFromScan st scanId dets true).1.adjustments = st.adjustments ++
      (updateFromScan st scanId dets true).2.map
        (fun u => ⟨u.1, u.2.2.1, u.2.2.2, u.2.1,
          pstr "Updated from scan #" ++ (Nat.repr scanId).data, some scanId⟩)) ∧
    updateFromScan ⟨[(pstr "b", 10)], []⟩ 7 [(pstr "b", 2), (pstr "b", 3), (pstr "b", 1)] true
      = (⟨[(pstr "b", 16)], [⟨pstr "b", 10, 16, 6, pstr "Updated from scan #7", some 7⟩]⟩,
         [(pstr "b", 6, 10, 16)]) := by
  have hupd : (updateFromScan st scanId dets applyAdj).2 =
      (aggregateDetections (dets.filter (fun d => (lookupQty st d.1).isSome))).map
        (fun p => (p.1, p.2, (lookupQty st p.1).getD 0, (lookupQty st p.1).getD 0 + p.2)) := rfl
  have hjoinedkeys : ∀ b, (lookupVal (aggregateDetections
      (dets.filter (fun d => (lookupQty st d.1).isSome))) b) =
      if b ∈ (dets.filter (fun d => (lookupQty st d.1).isSome)).map Prod.fst then
        some (sumDets (dets.filter (fun d => (lookupQty st d.1).isSome)) b)
      else none := by
    intro b
    exact aggregate_fold_lookup_none _ _ rfl
  have hnodup : ((aggregateDetections
      (dets.filter (fun d => (lookupQty st d.1).isSome))).map Prod.fst).Nodup :=
    aggregate_fold_nodup _ _ (by simp)
  have hmemkeys : ∀ b,
      (b ∈ (dets.filter (fun d => (lookupQty st d.1).isSome)).map Prod.fst) ↔
      ((lookupQty st b).isSome ∧ ∃ q, (b, q) ∈ dets) := by
    intro b
    constructor
    · intro hb
      obtain ⟨d, hd, hdb⟩ := List.mem_map.mp hb
      obtain ⟨hddets, hP⟩ := List.mem_filter.mp hd
      subst hdb
      refine ⟨by simpa using hP, d.2, ?_⟩
      simpa using hddets
    · rintro ⟨hsome, q, hq⟩
      exact List.mem_map.mpr ⟨(b, q), List.mem_filter.mpr ⟨hq, by simpa using hsome⟩, rfl⟩
  refine ⟨?_, ?_, ?_, ?_, by with_unfolding_all rfl⟩
  · rw [hupd, List.map_map]
    have : ((fun u : PyStr × Int × Int × Int => u.1) ∘
        (fun p : PyStr × Int =>
          (p.1, p.2, (lookupQty st p.1).getD 0, (lookupQty st p.1).getD 0 + p.2))) =
        Prod.fst := rfl
    rw [this]
    exact hnodup
  · intro b
    rw [hupd]
    constructor
    · rintro ⟨u, hu, hub⟩
      obtain ⟨p, hp, hpu⟩ := List.mem_map.mp hu
      have hb : b ∈ (aggregateDetections
          (dets.filter (fun d => (lookupQty st d.1).isSome))).map Prod.fst := by
        apply List.mem_map.mpr
        exact ⟨p, hp, by rw [← hub, ← hpu]⟩
      rw [mem_keys_iff_lookup_isSome, hjoinedkeys] at hb
      by_cases hmem : b ∈ (dets.filter (fun d => (lookupQty st d.1).isSome)).map Prod.fst
      · exact (hmemkeys b).mp hmem
      · rw [if_neg hmem] at hb
        cases hb
    · intro hb
      have hmem := (hmemkeys b).mpr hb
      have hb' : b ∈ (aggregateDetections
          (dets.filter (fun d => (lookupQty st d.1).isSome))).map Prod.fst := by
        rw [mem_keys_iff_lookup_isSome, hjoinedkeys, if_pos hmem]
        rfl
      obtain ⟨p, hp, hpb⟩ := List.mem_map.mp hb'
      exact ⟨(p.1, p.2, (lookupQty st p.1).getD 0, (lookupQty st p.1).getD 0 + p.2),
        List.mem_map.mpr ⟨p, hp, rfl⟩, hpb⟩
  · intro u hu
    rw [hupd] at hu
    obtain ⟨p, hp, hpu⟩ := List.mem_map.mp hu
    have hpmem : p.1 ∈ (aggregateDetections
        (dets.filter (fun d => (lookupQty st d.1).isSome))).map Prod.fst :=
      List.mem_map.mpr ⟨p, hp, rfl⟩
    have hlook := lookup_eq_of_mem_nodup _ p.1 p.2 hnodup (by
      have hpeta : p = (p.1, p.2) := rfl
      rw [← hpeta]
      exact hp)
    rw [hjoinedkeys] at hlook
    by_cases hmem : p.1 ∈ (dets.filter (fun d => (lookupQty st d.1).isSome)).map Prod.fst
    · rw [if_pos hmem] at hlook
      have hsum : p.2 = sumDets (dets.filter (fun d => (lookupQty st d.1).isSome)) p.1 :=
        (Option.some.inj hlook).symm
      have hsome : (lookupQty st p.1).isSome := ((hmemkeys p.1).mp hmem).1
      constructor
      · rw [← hpu]
        show p.2 = sumDets dets p.1
        rw [hsum, sumDets_filter_key st dets p.1 hsome]
      · rw [← hpu]
    · rw [if_neg hmem] at hlook
      cases hlook
  · have h1 : (updateFromScan st scanId dets true).1 =
        ((aggregateDetections (dets.filter (fun d => (lookupQty st d.1).isSome))).map
          (fun p => (p.1, p.2, (lookupQty st p.1).getD 0,
            (lookupQty st p.1).getD 0 + p.2))).foldl
          (fun s u =>
            { inventories := s.inventories.map (fun q => if q.1 = u.1 then (q.1, u.2.2.2) else q)
            , adjustments := s.adjustments ++
                [⟨u.1, u.2.2.1, u.2.2.2, u.2.1,
                  pstr "Updated from scan #" ++ (Nat.repr scanId).data, some scanId⟩] })
          st := rfl
    rw [h1, updates_fold_adjustments scanId _ st]
    rfl

/-- <b>C3</b>: for a scan with at least one image, the final status is
`failed` iff every image failed, and `completed` whenever some image failed
and some image succeeded (partial success). -/
theorem scan_status_partial_failure (outcomes : List ImgOutcome)
    (_hn : 1 ≤ outcomes.length) :
    (finalScanStatus outcomes = .failed ↔ ∀ o ∈ outcomes, imageFailed o = true) ∧
    ((∃ o ∈ outcomes, imageFailed o = true) → (∃ o ∈ outcomes, imageFailed o = false) →
      finalScanStatus outcomes = .completed) := by
  constructor
  · unfold finalScanStatus
    by_cases hall : (outcomes.filter imageFailed).length = outcomes.length
    · simp only [hall, if_true, true_iff]
      intro o ho
      exact List.filter_length_eq_length.mp hall o ho
    · simp only [hall, if_false, ite_self]
      constructor
      · intro h; cases h
      · intro h
        exact absurd (List.filter_length_eq_length.mpr h) hall
  · rintro ⟨o₁, ho₁, hf₁⟩ ⟨o₂, ho₂, hf₂⟩
    unfold finalScanStatus
    have hne : (outcomes.filter imageFailed).length ≠ outcomes.length := by
      intro hall
      have := List.filter_length_eq_length.mp hall o₂ ho₂
      rw [this] at hf₂
      cases hf₂
    simp [hne]

/-- Witness for C3: one failed and one successful image give `completed`. -/
theorem scan_status_partial_failure_w :
    finalScanStatus [ImgOutcome.visionFailed, ImgOutcome.success] = .completed :=
  (scan_status_partial_failure [ImgOutcome.visionFailed, ImgOutcome.success]
      (by decide)).2
    ⟨ImgOutcome.visionFailed, by decide, by decide⟩
    ⟨ImgOutcome.success, by decide, by decide⟩

/-! ## C10: empty scan -/

/-- <b>C10</b>: the background processor marks a scan with zero images
`failed` (0 failed images = 0 total images), and the `start_processing`
endpoint rejects every scan whose `total_images` is 0, whatever its status. -/
theorem empty_scan_fails :
    finalScanStatus [] = .failed ∧
    ∀ st : ScanSt, (startProcessingGuard st 0).isSome = true := by
  refine ⟨rfl, ?_⟩
  intro st
  cases st <;> rfl

/-! ## C9: concrete parse scenario and confidence mapping -/

/-- <b>C9</b>: the raw vision text
`"OAS Bushcraft | 3 | high\nMilestone 1 | 2 | medium"` parses to exactly the
two RawDetections `(OAS Bushcraft, 3, high → 0.9)` and
`(Milestone 1, 2, medium → 0.75)`, in input order, and the label-to-score
mapping is high = 0.9, medium = 0.75, low = 0.5 and 0.6 for any
unrecognized label. -/
theorem parse_scenario_C :
    parseResponse (pstr "OAS Bushcraft | 3 | high\nMilestone 1 | 2 | medium") =
      [⟨pstr "OAS Bushcraft", 3, pstr "high", 9/10⟩,
       ⟨pstr "Milestone 1", 2, pstr "medium", 3/4⟩] ∧
    confidenceToScore (pstr "high") = 9/10 ∧
    confidenceToScore (pstr "medium") = 3/4 ∧
    confidenceToScore (pstr "low") = 1/2 ∧
    (∀ c : PyStr, pyLower c ≠ pstr "high" → pyLower c ≠ pstr "medium" →
      pyLower c ≠ pstr "low" → confidenceToScore c = 3/5) := by
  refine ⟨by with_unfolding_all rfl, by with_unfolding_all rfl,
    by with_unfolding_all rfl, by with_unfolding_all rfl, ?_⟩
  intro c h1 h2 h3
  unfold confidenceToScore
  rw [if_neg h1, if_neg h2, if_neg h3]

/-- Witness for C9's unrecognized-label clause at a concrete label. -/
theorem parse_scenario_C_w : confidenceToScore (pstr "banana") = 3/5 :=
  parse_scenario_C.2.2.2.2 (pstr "banana") (by decide) (by decide) (by decide)

/-! ## C8: parsed counts -/

/-- Counterexample to <b>C8</b> as stated: the pipe layout parses its count
field with Python `int()`, which accepts negative values, so
`"Badge | -3 | high"` produces a RawDetection with `count = -3 < 0`. -/
theorem parse_count_negative_cex :
    parseResponse (pstr "Badge | -3 | high") =
      [⟨pstr "Badge", -3, pstr "high", 9/10⟩] ∧ (-3 : Int) < 0 :=
  ⟨by with_unfolding_all rfl, by decide⟩

/-- Every detection the colon / natural-language layouts produce has a
non-negative count (their counts come from a `\d+` group). -/
theorem parseLine_count_nonneg_of_not_pipe (line : PyStr)
    (hnp : ¬ (trimWs line).contains '|' = true) :
    ∀ d ∈ parseLine line, 0 ≤ d.count := by
  intro d hd
  unfold parseLine at hd
  by_cases h0 : trimWs line = []
  · rw [if_pos h0] at hd
    cases hd
  · rw [if_neg h0] at hd
    by_cases h1 : (trimWs line).take 1 = pstr "#"
    · rw [if_pos h1] at hd
      cases hd
    · rw [if_neg h1, if_neg hnp] at hd
      by_cases h2 : (trimWs line).contains ':'
      · rw [if_pos h2] at hd
        unfold parseFormat2 at hd
        cases hf : parseFormat2Aux [] (trimWs line) with
        | none => rw [hf] at hd; cases hd
        | some t =>
          rw [hf] at hd
          rw [List.mem_singleton] at hd
          rw [hd]
          exact Int.ofNat_nonneg t.2.1
      · rw [if_neg h2] at hd
        unfold parseFormat3 at hd
        cases hf : parseFormat3Scan (trimWs line) with
        | none => rw [hf] at hd; cases hd
        | some t =>
          rw [hf] at hd
          rw [List.mem_singleton] at hd
          rw [hd]
          exact Int.ofNat_nonneg t.1

/-- Membership in the per-line concatenation of `_parse_response`. -/
theorem mem_parseResponse (response : PyStr) (d : RawDetection) :
    d ∈ parseResponse response ↔
      ∃ line ∈ splitChar '\n' (trimWs response), d ∈ parseLine line := by
  unfold parseResponse
  induction splitChar '\n' (trimWs response) with
  | nil => simp
  | cons l ls ih =>
    simp only [List.foldr_cons, List.mem_append, ih, List.mem_cons]
    constructor
    · rintro (h | ⟨x, hx, hdx⟩)
      · exact ⟨l, Or.inl rfl, h⟩
      · exact ⟨x, Or.inr hx, hdx⟩
    · rintro ⟨x, hx | hx, hdx⟩
      · exact Or.inl (hx ▸ hdx)
      · exact Or.inr ⟨x, hx, hdx⟩

/-- <b>C8 (amended)</b>: every RawDetection parsed from a line without a pipe
has count ≥ 0; for pipe-delimited lines the count is whatever Python `int()`
returns on the count field, so all counts are ≥ 0 provided every
pipe-delimited line's parsed count is ≥ 0. -/
theorem parse_count_nonneg (response : PyStr)
    (hpipe : ∀ line ∈ splitChar '\n' (trimWs response),
      ∀ d ∈ parseFormat1 (trimWs line), 0 ≤ d.count) :
    ∀ d ∈ parseResponse response, 0 ≤ d.count := by
  intro d hd
  obtain ⟨line, hline, hdl⟩ := (mem_parseResponse response d).mp hd
  by_cases hnp : (trimWs line).contains '|'
  · have hd1 : d ∈ parseFormat1 (trimWs line) := by
      unfold parseLine at hdl
      by_cases h0 : trimWs line = []
      · rw [if_pos h0] at hdl; cases hdl
      · rw [if_neg h0] at hdl
        by_cases h1 : (trimWs line).take 1 = pstr "#"
        · rw [if_pos h1] at hdl; cases hdl
        · rwa [if_neg h1, if_pos hnp] at hdl
    exact hpipe line hline d hd1
  · exact parseLine_count_nonneg_of_not_pipe line hnp d hdl

/-- Witness for C8 (amended): the first detection parsed from the concrete
scenario-C text has a non-negative count. -/
theorem parse_count_nonneg_w :
    0 ≤ (⟨pstr "OAS Bushcraft", 3, pstr "high", 9/10⟩ : RawDetection).count :=
  parse_count_nonneg (pstr "OAS Bushcraft | 3 | high\nMilestone 1 | 2 | medium")
    (by decide) ⟨pstr "OAS Bushcraft", 3, pstr "high", 9/10⟩
    (by
      rw [show parseResponse (pstr "OAS Bushcraft | 3 | high\nMilestone 1 | 2 | medium") =
        [⟨pstr "OAS Bushcraft", 3, pstr "high", 9/10⟩,
         ⟨pstr "Milestone 1", 2, pstr "medium", 3/4⟩] from by with_unfolding_all rfl]
      exact List.mem_cons_self _ _)

/-! ## C4: abbreviation fast path -/

/-- A pair in a `dictInsert` result is either an old pair or carries the
inserted value. -/
theorem mem_dictInsert (k v : PyStr) (m : List (PyStr × PyStr)) (p : PyStr × PyStr)
    (hp : p ∈ dictInsert k v m) : p ∈ m ∨ p.2 = v := by
  unfold dictInsert at hp
  by_cases h : m.any (fun q => q.1 = k)
  · rw [if_pos h] at hp
    obtain ⟨q, hq, hpq⟩ := List.mem_map.mp hp
    by_cases hqk : q.1 = k
    · rw [if_pos hqk] at hpq
      right
      rw [← hpq]
    · rw [if_neg hqk] at hpq
      left
      rw [← hpq]
      exact hq
  · rw [if_neg h] at hp
    rcases List.mem_append.mp hp with h1 | h1
    · exact Or.inl h1
    · right
      rw [List.mem_singleton] at h1
      rw [h1]

/-- The OAS block only adds bindings to the current entry's badge id. -/
theorem mem_oasAbbrevs (m : List (PyStr × PyStr)) (e : CatalogEntry)
    (p : PyStr × PyStr) (hp : p ∈ oasAbbrevs m e) : p ∈ m ∨ p.2 = e.badge_id := by
  unfold oasAbbrevs at hp
  split at hp
  · split at hp
    · rcases mem_dictInsert _ _ _ _ hp with hp2 | hp2
      · rcases mem_dictInsert _ _ _ _ hp2 with hp3 | hp3
        · exact Or.inl hp3
        · exact Or.inr hp3
      · exact Or.inr hp2
    · exact Or.inl hp
  · exact Or.inl hp

/-- The SIA block only adds bindings to the current entry's badge id. -/
theorem mem_siaAbbrevs (m : List (PyStr × PyStr)) (e : CatalogEntry)
    (p : PyStr × PyStr) (hp : p ∈ siaAbbrevs m e) : p ∈ m ∨ p.2 = e.badge_id := by
  unfold siaAbbrevs at hp
  split at hp
  · rcases mem_dictInsert _ _ _ _ hp with hp2 | hp2
    · rcases mem_dictInsert _ _ _ _ hp2 with hp3 | hp3
      · exact Or.inl hp3
      · exact Or.inr hp3
    · exact Or.inr hp2
  · exact Or.inl hp

/-- The Milestone block only adds bindings to the current entry's badge id. -/
theorem mem_milestoneAbbrevs (m : List (PyStr × PyStr)) (e : CatalogEntry)
    (p : PyStr × PyStr) (hp : p ∈ milestoneAbbrevs m e) : p ∈ m ∨ p.2 = e.badge_id := by
  unfold milestoneAbbrevs at hp
  split at hp
  · split at hp
    · rcases mem_dictInsert _ _ _ _ hp with hp2 | hp2
      · rcases mem_dictInsert _ _ _ _ hp2 with hp3 | hp3
        · exact Or.inl hp3
        · exact Or.inr hp3
      · exact Or.inr hp2
    · split at hp
      · rcases mem_dictInsert _ _ _ _ hp with hp2 | hp2
        · rcases mem_dictInsert _ _ _ _ hp2 with hp3 | hp3
          · exact Or.inl hp3
          · exact Or.inr hp3
        · exact Or.inr hp2
      · split at hp
        · rcases mem_dictInsert _ _ _ _ hp with hp2 | hp2
          · rcases mem_dictInsert _ _ _ _ hp2 with hp3 | hp3
            · exact Or.inl hp3
            · exact Or.inr hp3
          · exact Or.inr hp2
        · exact Or.inl hp
  · exact Or.inl hp

/-- The loop body only adds bindings to the current entry's badge id. -/
theorem mem_addEntryAbbrevs (m : List (PyStr × PyStr)) (e : CatalogEntry)
    (p : PyStr × PyStr) (hp : p ∈ addEntryAbbrevs m e) : p ∈ m ∨ p.2 = e.badge_id := by
  unfold addEntryAbbrevs at hp
  rcases mem_milestoneAbbrevs _ _ _ hp with hp2 | hp2
  · rcases mem_siaAbbrevs _ _ _ hp2 with hp3 | hp3
    · exact mem_oasAbbrevs _ _ _ hp3
    · exact Or.inr hp3
  · exact Or.inr hp2

/-- Every value of the abbreviation map is a badge id of the catalog. -/
theorem mem_buildAbbreviationMap (catalog : List CatalogEntry) (p : PyStr × PyStr)
    (hp : p ∈ buildAbbreviationMap catalog) : ∃ e ∈ catalog, p.2 = e.badge_id := by
  suffices h : ∀ (l : List CatalogEntry) (m : List (PyStr × PyStr)),
      p ∈ l.foldl addEntryAbbrevs m → p ∈ m ∨ ∃ e ∈ l, p.2 = e.badge_id by
    rcases h catalog [] hp with h1 | h1
    · cases h1
    · exact h1
  intro l
  induction l with
  | nil => exact fun m hm => Or.inl hm
  | cons e l ih =>
    intro m hm
    rw [List.foldl_cons] at hm
    rcases ih _ hm with h1 | h1
    · rcases mem_addEntryAbbrevs _ _ _ h1 with h2 | h2
      · exact Or.inl h2
      · exact Or.inr ⟨e, List.mem_cons_self e l, h2⟩
    · obtain ⟨e', he', hpe'⟩ := h1
      exact Or.inr ⟨e', List.mem_cons_of_mem e he', hpe'⟩

/-- <b>C4</b>: whenever the lowercased, space-stripped detected name equals
some registered abbreviation key (space-stripped), `match_badge_name` takes
the abbreviation fast path — regardless of the rest of the catalog — and
returns `match_score = 100`, `matched = true` and
`confidence_score = min(1.1 · vision_confidence, 1.0)`.  (The catalog is
assumed well formed: badge ids, being the keys of the badge dict, are
non-empty.) -/
theorem abbreviation_fast_path (badges : List CatalogEntry) (minScore boost : ℚ)
    (detected : PyStr) (conf : ℚ) (hint : Option PyStr)
    (hids : ∀ e ∈ badges, e.badge_id ≠ [])
    (hkey : ∃ q ∈ buildAbbreviationMap badges,
      stripSpaces q.1 = stripSpaces (pyLower detected)) :
    ∃ r, matchBadgeName badges minScore boost detected conf hint = some r ∧
      r.match_score = 100 ∧ r.matched = true ∧
      r.confidence_score = pyMin (conf * (11/10)) 1 := by
  obtain ⟨q, hq, hqeq⟩ := hkey
  have hfind : ((buildAbbreviationMap badges).find?
      (fun p => stripSpaces p.1 = stripSpaces (pyLower detected))).isSome := by
    rw [List.find?_isSome]
    exact ⟨q, hq, decide_eq_true hqeq⟩
  obtain ⟨q', hq'⟩ := Option.isSome_iff_exists.mp hfind
  have hq'mem : q' ∈ buildAbbreviationMap badges := List.mem_of_find?_eq_some hq'
  obtain ⟨e, he, hq'id⟩ := mem_buildAbbreviationMap badges q' hq'mem
  have hne : q'.2 ≠ [] := hq'id ▸ hids e he
  have hchk : checkAbbreviation (buildAbbreviationMap badges) detected = some q'.2 := by
    have hz : checkAbbreviation (buildAbbreviationMap badges) detected =
        ((buildAbbreviationMap badges).find?
          (fun p => stripSpaces p.1 = stripSpaces (pyLower detected))).map (fun p => p.2) := rfl
    rw [hz, hq']
    rfl
  have hfind2 : (badges.find? (fun e' => e'.badge_id = q'.2)).isSome := by
    rw [List.find?_isSome]
    exact ⟨e, he, decide_eq_true hq'id.symm⟩
  obtain ⟨e', he'⟩ := Option.isSome_iff_exists.mp hfind2
  refine ⟨⟨q'.2, e'.name, detected, 100, pyMin (conf * (11/10)) 1, true, e'.category⟩,
    ?_, rfl, rfl, rfl⟩
  unfold matchBadgeName
  rw [hchk]
  simp only [hne, if_neg, ite_false]
  rw [he']

/-- Witness for C4 (concrete scenario A): catalog entry `OAS Bushcraft`,
detected name `oasbushcraft`. -/
theorem abbreviation_fast_path_w :
    ∃ r, matchBadgeName [⟨pstr "oas-bushcraft", pstr "OAS Bushcraft", none⟩]
        80 5 (pstr "oasbushcraft") (3/4) none = some r ∧
      r.match_score = 100 ∧ r.matched = true ∧
      r.confidence_score = pyMin ((3/4) * (11/10)) 1 :=
  abbreviation_fast_path [⟨pstr "oas-bushcraft", pstr "OAS Bushcraft", none⟩]
    80 5 (pstr "oasbushcraft") (3/4) none (by decide) (by decide)

/-! ## C6: score and confidence ranges -/

/-- The InDel distance never exceeds the total length. -/
theorem indelF_le (fuel : Nat) : ∀ a b : List Char, indelF fuel a b ≤ a.length + b.length := by
  induction fuel with
  | zero =>
    intro a b
    cases a with
    | nil => simp [indelF]
    | cons x xs =>
      cases b with
      | nil => simp [indelF]
      | cons y ys => simp [indelF]
  | succ fuel ih =>
    intro a b
    cases a with
    | nil => simp [indelF]
    | cons x xs =>
      cases b with
      | nil => simp [indelF]
      | cons y ys =>
        rw [show indelF (fuel + 1) (x :: xs) (y :: ys) =
          if x = y then indelF fuel xs ys
          else 1 + Nat.min (indelF fuel xs (y :: ys)) (indelF fuel (x :: xs) ys) from rfl]
        by_cases hxy : x = y
        · rw [if_pos hxy]
          have := ih xs ys
          simp only [List.length_cons]
          omega
        · rw [if_neg hxy]
          have h1 := ih xs (y :: ys)
          have h2 : Nat.min (indelF fuel xs (y :: ys)) (indelF fuel (x :: xs) ys) ≤
              indelF fuel xs (y :: ys) := Nat.min_le_left _ _
          simp only [List.length_cons] at h1 ⊢
          omega

/-- `fuzz.ratio` stays within 0–100. -/
theorem fuzzRatio_bounds (a b : PyStr) : 0 ≤ fuzzRatio a b ∧ fuzzRatio a b ≤ 100 := by
  unfold fuzzRatio
  by_cases h : a.length + b.length = 0
  · rw [if_pos h]
    norm_num
  · rw [if_neg h]
    have hd : indel a b ≤ a.length + b.length := indelF_le _ a b
    have hpos : (0 : ℚ) < (a.length : ℚ) + (b.length : ℚ) := by
      have := Nat.pos_of_ne_zero h
      exact_mod_cast this
    have hdq : (indel a b : ℚ) ≤ (a.length : ℚ) + (b.length : ℚ) := by exact_mod_cast hd
    have h0 : (0 : ℚ) ≤ (indel a b : ℚ) := by positivity
    have hle1 : (indel a b : ℚ) / ((a.length : ℚ) + (b.length : ℚ)) ≤ 1 := by
      rw [div_le_one hpos]
      exact hdq
    have hge0 : (0 : ℚ) ≤ (indel a b : ℚ) / ((a.length : ℚ) + (b.length : ℚ)) := by
      positivity
    constructor
    · nlinarith
    · nlinarith

/-- `pyMax` keeps common bounds. -/
theorem pyMax_bounds {lo hi a b : ℚ} (ha : lo ≤ a ∧ a ≤ hi) (hb : lo ≤ b ∧ b ≤ hi) :
    lo ≤ pyMax a b ∧ pyMax a b ≤ hi := by
  unfold pyMax
  split
  · exact hb
  · exact ha

/-- `fuzz.token_sort_ratio` stays within 0–100. -/
theorem tokenSortRatio_bounds (a b : PyStr) :
    0 ≤ tokenSortRatio a b ∧ tokenSortRatio a b ≤ 100 := by
  unfold tokenSortRatio
  exact fuzzRatio_bounds _ _

/-- `fuzz.token_set_ratio` stays within 0–100. -/
theorem tokenSetRatio_bounds (a b : PyStr) :
    0 ≤ tokenSetRatio a b ∧ tokenSetRatio a b ≤ 100 := by
  simp only [tokenSetRatio]
  split
  · norm_num
  · exact pyMax_bounds (fuzzRatio_bounds _ _)
      (pyMax_bounds (fuzzRatio_bounds _ _) (fuzzRatio_bounds _ _))

/-- A `pyMax` fold of ratios keeps the 0–100 bounds of its start. -/
theorem foldMax_bounds (s : PyStr) (ws : List PyStr) :
    ∀ acc : ℚ, 0 ≤ acc → acc ≤ 100 →
      0 ≤ ws.foldl (fun acc w => pyMax acc (fuzzRatio s w)) acc ∧
      ws.foldl (fun acc w => pyMax acc (fuzzRatio s w)) acc ≤ 100 := by
  induction ws with
  | nil => exact fun acc h0 h1 => ⟨h0, h1⟩
  | cons w ws ih =>
    intro acc h0 h1
    rw [List.foldl_cons]
    have := pyMax_bounds ⟨h0, h1⟩ (fuzzRatio_bounds s w)
    exact ih _ this.1 this.2

/-- `fuzz.partial_ratio` stays within 0–100. -/
theorem partRatio_bounds (a b : PyStr) : 0 ≤ partRatio a b ∧ partRatio a b ≤ 100 := by
  unfold partRatio
  exact foldMax_bounds _ _ 0 le_rfl (by norm_num)

/-- Per-entry blended scores lie in `[0, 100 + boost]`, and in `[0, 100]`
without a category hint. -/
theorem entryScore_bounds (boost : ℚ) (hint : Option PyStr) (nd : PyStr)
    (e : CatalogEntry) (hb : 0 ≤ boost) :
    0 ≤ entryScore boost hint nd e ∧ entryScore boost hint nd e ≤ 100 + boost ∧
      (hint = none → entryScore boost hint nd e ≤ 100) := by
  obtain ⟨h1a, h1b⟩ := tokenSortRatio_bounds nd (normalizeName e.name)
  obtain ⟨h2a, h2b⟩ := tokenSetRatio_bounds nd (normalizeName e.name)
  obtain ⟨h3a, h3b⟩ := partRatio_bounds nd (normalizeName e.name)
  cases hint with
  | none =>
    simp only [entryScore]
    refine ⟨by nlinarith, by nlinarith, fun _ => by nlinarith⟩
  | some h =>
    simp only [entryScore]
    split
    · refine ⟨by nlinarith, by nlinarith, fun hc => by cases hc⟩
    · refine ⟨by nlinarith, by nlinarith, fun hc => by cases hc⟩

/-- The best score tracked by the catalog fold lies in `[0, 100 + boost]`,
and in `[0, 100]` without a category hint. -/
theorem fuzzyBest_bounds (badges : List CatalogEntry) (boost : ℚ)
    (hint : Option PyStr) (nd : PyStr) (hb : 0 ≤ boost) :
    0 ≤ (fuzzyBest badges boost hint nd).1 ∧
      (fuzzyBest badges boost hint nd).1 ≤ 100 + boost ∧
      (hint = none → (fuzzyBest badges boost hint nd).1 ≤ 100) := by
  unfold fuzzyBest
  suffices h : ∀ acc : ℚ × Option CatalogEntry, 0 ≤ acc.1 → acc.1 ≤ 100 + boost →
      (hint = none → acc.1 ≤ 100) →
      0 ≤ (badges.foldl
        (fun acc e =>
          let score := entryScore boost hint nd e
          if score > acc.1 then (score, some e) else acc) acc).1 ∧
      (badges.foldl
        (fun acc e =>
          let score := entryScore boost hint nd e
          if score > acc.1 then (score, some e) else acc) acc).1 ≤ 100 + boost ∧
      (hint = none → (badges.foldl
        (fun acc e =>
          let score := entryScore boost hint nd e
          if score > acc.1 then (score, some e) else acc) acc).1 ≤ 100) by
    refine h (0, none) le_rfl ?_ ?_
    · show (0 : ℚ) ≤ 100 + boost
      nlinarith
    · intro _
      show (0 : ℚ) ≤ 100
      norm_num
  induction badges with
  | nil => exact fun acc h0 h1 h2 => ⟨h0, h1, h2⟩
  | cons e badges ih =>
    intro acc h0 h1 h2
    rw [List.foldl_cons]
    obtain ⟨he0, he1, he2⟩ := entryScore_bounds boost hint nd e hb
    by_cases hgt : entryScore boost hint nd e > acc.1
    · simp only [hgt, if_true, if_pos]
      exact ih (entryScore boost hint nd e, some e) he0 he1 he2
    · simp only [hgt, if_false, if_neg]
      exact ih acc h0 h1 h2

/-- All `fuzzyMatchResult` branches report `best_score` as the match score
and the blended value as the confidence, so both satisfy the range bounds. -/
theorem fuzzyMatchResult_bounds (badges : List CatalogEntry) (minScore boost : ℚ)
    (detected : PyStr) (conf : ℚ) (hint : Option PyStr)
    (hc0 : 0 ≤ conf) (hc1 : conf ≤ 1) (hb : 0 ≤ boost) :
    (0 ≤ (fuzzyMatchResult badges minScore boost detected conf hint).match_score ∧
      (fuzzyMatchResult badges minScore boost detected conf hint).match_score ≤ 100 + boost ∧
      0 ≤ (fuzzyMatchResult badges minScore boost detected conf hint).confidence_score ∧
      (fuzzyMatchResult badges minScore boost detected conf hint).confidence_score ≤
        2/5 + (100 + boost)/100 * (3/5)) ∧
    (hint = none →
      (fuzzyMatchResult badges minScore boost detected conf hint).match_score ≤ 100 ∧
      (fuzzyMatchResult badges minScore boost detected conf hint).confidence_score ≤ 1) := by
  obtain ⟨hb0, hb1, hb2⟩ :=
    fuzzyBest_bounds badges boost hint (normalizeName detected) hb
  have hcomb0 : 0 ≤ conf * (2/5) +
      (fuzzyBest badges boost hint (normalizeName detected)).1 / 100 * (3/5) := by
    nlinarith
  have hcomb1 : conf * (2/5) +
      (fuzzyBest badges boost hint (normalizeName detected)).1 / 100 * (3/5) ≤
      2/5 + (100 + boost)/100 * (3/5) := by
    nlinarith
  have hcomb2 : hint = none → conf * (2/5) +
      (fuzzyBest badges boost hint (normalizeName detected)).1 / 100 * (3/5) ≤ 1 := by
    intro hn
    have := hb2 hn
    nlinarith
  unfold fuzzyMatchResult
  rcases hbest : (fuzzyBest badges boost hint (normalizeName detected)).2 with _ | e
  · simp only [hbest]
    exact ⟨⟨hb0, hb1, hcomb0, hcomb1⟩, fun hn => ⟨hb2 hn, hcomb2 hn⟩⟩
  · simp only [hbest]
    split
    · exact ⟨⟨hb0, hb1, hcomb0, hcomb1⟩, fun hn => ⟨hb2 hn, hcomb2 hn⟩⟩
    · split
      · exact ⟨⟨hb0, hb1, hcomb0, hcomb1⟩, fun hn => ⟨hb2 hn, hcomb2 hn⟩⟩
      · exact ⟨⟨hb0, hb1, hcomb0, hcomb1⟩, fun hn => ⟨hb2 hn, hcomb2 hn⟩⟩

/-- Counterexample to <b>C6</b> as stated: the category boost is added after
the 0.5/0.3/0.2 blend, so an exact match plus a matching category hint
scores 105 > 100, and with vision confidence 1 the blended confidence
is 1.03 > 1. -/
theorem match_ranges_cex :
    matchBadgeName [⟨pstr "b1", pstr "a", some (pstr "cat")⟩] 80 5 (pstr "a") 1
        (some (pstr "cat"))
      = some ⟨pstr "b1", pstr "a", pstr "a", 105, 103/100, true, some (pstr "cat")⟩ ∧
    (105 : ℚ) > 100 ∧ (103/100 : ℚ) > 1 :=
  ⟨by with_unfolding_all rfl, by norm_num, by norm_num⟩

/-- <b>C6 (amended)</b>: for vision confidence in `[0, 1]` and a non-negative
category boost, every returned match has `match_score ∈ [0, 100 + boost]` and
`confidence_score ∈ [0, 0.4 + 0.6·(100 + boost)/100]`; when no category hint
is supplied the claimed ranges `[0, 100]` and `[0, 1]` do hold. -/
theorem match_ranges (badges : List CatalogEntry) (minScore boost : ℚ)
    (detected : PyStr) (conf : ℚ) (hint : Option PyStr) (r : BadgeMatch)
    (hc0 : 0 ≤ conf) (hc1 : conf ≤ 1) (hb : 0 ≤ boost)
    (hr : matchBadgeName badges minScore boost detected conf hint = some r) :
    (0 ≤ r.match_score ∧ r.match_score ≤ 100 + boost ∧
      0 ≤ r.confidence_score ∧ r.confidence_score ≤ 2/5 + (100 + boost)/100 * (3/5)) ∧
    (hint = none → r.match_score ≤ 100 ∧ r.confidence_score ≤ 1) := by
  have hfuzzy := fuzzyMatchResult_bounds badges minScore boost detected conf hint hc0 hc1 hb
  unfold matchBadgeName at hr
  rcases hchk : checkAbbreviation (buildAbbreviationMap badges) detected with _ | bid
  · rw [hchk] at hr
    dsimp only at hr
    rw [Option.some.inj hr] at hfuzzy
    exact hfuzzy
  · rw [hchk] at hr
    dsimp only at hr
    by_cases hbid : bid = []
    · rw [if_pos hbid] at hr
      rw [Option.some.inj hr] at hfuzzy
      exact hfuzzy
    · rw [if_neg hbid] at hr
      rcases hfind : badges.find? (fun e => e.badge_id = bid) with _ | e
      · rw [hfind] at hr
        cases hr
      · rw [hfind] at hr
        dsimp only at hr
        rw [← Option.some.inj hr]
        have hmin0 : 0 ≤ pyMin (conf * (11/10)) 1 := by
          unfold pyMin
          split
          · nlinarith
          · norm_num
        have hmin1 : pyMin (conf * (11/10)) 1 ≤ 1 := by
          unfold pyMin
          split
          · linarith
          · linarith
        refine ⟨⟨by norm_num, by nlinarith, hmin0, by nlinarith⟩,
          fun _ => ⟨by norm_num, hmin1⟩⟩

/-- Witness for C6 (amended), hint-free: the concrete scenario-A call obeys
the claimed ranges. -/
theorem match_ranges_w :
    (0 ≤ (100 : ℚ) ∧ (100 : ℚ) ≤ 100 + 5 ∧ 0 ≤ pyMin ((3/4) * (11/10)) 1 ∧
      pyMin ((3/4) * (11/10)) 1 ≤ 2/5 + (100 + 5)/100 * (3/5)) ∧
    ((none : Option PyStr) = none → (100 : ℚ) ≤ 100 ∧ pyMin ((3/4) * (11/10)) 1 ≤ 1) :=
  match_ranges [⟨pstr "oas-bushcraft", pstr "OAS Bushcraft", none⟩] 80 5
    (pstr "oasbushcraft") (3/4) none
    ⟨pstr "oas-bushcraft", pstr "OAS Bushcraft", pstr "oasbushcraft", 100,
      pyMin ((3/4) * (11/10)) 1, true, none⟩
    (by norm_num) (by norm_num) (by norm_num) (by with_unfolding_all rfl)

/-! ## C7: threshold monotonicity -/

/-- Every `fuzzyMatchResult` branch reports the fold's best score, which does
not depend on the threshold. -/
theorem fuzzyMatchResult_match_score (badges : List CatalogEntry)
    (minScore boost : ℚ) (detected : PyStr) (conf : ℚ) (hint : Option PyStr) :
    (fuzzyMatchResult badges minScore boost detected conf hint).match_score =
      (fuzzyBest badges boost hint (normalizeName detected)).1 := by
  simp only [fuzzyMatchResult]
  rcases h : (fuzzyBest badges boost hint (normalizeName detected)).2 with _ | e
  · rfl
  · dsimp only
    split
    · rfl
    · split <;> rfl

/-- The returned `matched` flag holds exactly when the fold selected an entry
with a truthy badge id and the best score meets the threshold. -/
theorem fuzzyMatchResult_matched_iff (badges : List CatalogEntry)
    (minScore boost : ℚ) (detected : PyStr) (conf : ℚ) (hint : Option PyStr) :
    (fuzzyMatchResult badges minScore boost detected conf hint).matched = true ↔
      ∃ e, (fuzzyBest badges boost hint (normalizeName detected)).2 = some e ∧
        e.badge_id ≠ [] ∧ minScore ≤ (fuzzyBest badges boost hint (normalizeName detected)).1 := by
  simp only [fuzzyMatchResult]
  rcases h : (fuzzyBest badges boost hint (normalizeName detected)).2 with _ | e
  · simp
  · dsimp only
    by_cases hid : e.badge_id = []
    · rw [if_pos hid]
      simp only [Option.some.injEq]
      constructor
      · intro hfalse
        cases hfalse
      · rintro ⟨e', he', hid', _⟩
        exact absurd (he' ▸ hid) hid'
    · rw [if_neg hid]
      by_cases hmle : minScore ≤ (fuzzyBest badges boost hint (normalizeName detected)).1
      · rw [if_pos (decide_eq_true hmle)]
        simp only [Option.some.injEq, true_iff]
        exact ⟨e, rfl, hid, hmle⟩
      · rw [if_neg (by simpa using hmle)]
        simp only [Option.some.injEq]
        constructor
        · intro hfalse
          cases hfalse
        · rintro ⟨e', _, _, hle⟩
          exact absurd hle hmle

/-- Fuzzy-path monotonicity in the threshold. -/
theorem fuzzyMatchResult_mono (badges : List CatalogEntry) (m1 m2 boost : ℚ)
    (detected : PyStr) (conf : ℚ) (hint : Option PyStr) (h12 : m1 ≤ m2) :
    (fuzzyMatchResult badges m1 boost detected conf hint).match_score =
      (fuzzyMatchResult badges m2 boost detected conf hint).match_score ∧
    ((fuzzyMatchResult badges m2 boost detected conf hint).matched = true →
      (fuzzyMatchResult badges m1 boost detected conf hint).matched = true) ∧
    ((fuzzyMatchResult badges m1 boost detected conf hint).matched = true →
      m1 ≤ (fuzzyMatchResult badges m1 boost detected conf hint).match_score) := by
  refine ⟨?_, ?_, ?_⟩
  · rw [fuzzyMatchResult_match_score, fuzzyMatchResult_match_score]
  · intro hm2
    rw [fuzzyMatchResult_matched_iff] at hm2 ⊢
    obtain ⟨e, he, hid, hle⟩ := hm2
    exact ⟨e, he, hid, le_trans h12 hle⟩
  · intro hm1
    rw [fuzzyMatchResult_matched_iff] at hm1
    obtain ⟨e, he, hid, hle⟩ := hm1
    rw [fuzzyMatchResult_match_score]
    exact hle

/-- Counterexample to the "matched iff best_score ≥ min_match_score" clause
of <b>C7</b>: with threshold 0 and a catalog entry sharing no similarity with
the detected name, the best score 0 meets the threshold, yet `best_match`
stays `None` and the returned flag is `matched = false`. -/
theorem threshold_flag_cex :
    matchBadgeName [⟨pstr "b1", pstr "aaa", none⟩] 0 5 (pstr "zzz") (3/4) none
      = some ⟨[], [], pstr "zzz", 0, 3/10, false, none⟩ ∧ ((0 : ℚ) ≥ 0) :=
  ⟨by with_unfolding_all rfl, le_refl 0⟩

/-- <b>C7 (amended)</b>: the best score is independent of the threshold, and
raising `min_match_score` can only turn `matched = true` into `false`, never
the reverse; on the fuzzy path (no abbreviation hit) `matched = true` implies
`best_score ≥ min_match_score`, though the converse can fail when no catalog
entry attains a positive score (and the abbreviation fast path returns
`matched = true` regardless of the threshold). -/
theorem threshold_monotone (badges : List CatalogEntry) (m1 m2 boost : ℚ)
    (detected : PyStr) (conf : ℚ) (hint : Option PyStr)
    (h12 : m1 ≤ m2) (r1 r2 : BadgeMatch)
    (h1 : matchBadgeName badges m1 boost detected conf hint = some r1)
    (h2 : matchBadgeName badges m2 boost detected conf hint = some r2) :
    r1.match_score = r2.match_score ∧
    (r2.matched = true → r1.matched = true) ∧
    (checkAbbreviation (buildAbbreviationMap badges) detected = none →
      r1.matched = true → m1 ≤ r1.match_score) := by
  unfold matchBadgeName at h1 h2
  rcases hchk : checkAbbreviation (buildAbbreviationMap badges) detected with _ | bid
  · rw [hchk] at h1 h2
    dsimp only at h1 h2
    have e1 := Option.some.inj h1
    have e2 := Option.some.inj h2
    subst e1
    subst e2
    obtain ⟨ha, hb', hc'⟩ := fuzzyMatchResult_mono badges m1 m2 boost detected conf hint h12
    exact ⟨ha, hb', fun _ => hc'⟩
  · rw [hchk] at h1 h2
    dsimp only at h1 h2
    by_cases hbid : bid = []
    · rw [if_pos hbid] at h1 h2
      have e1 := Option.some.inj h1
      have e2 := Option.some.inj h2
      subst e1
      subst e2
      obtain ⟨ha, hb', hc'⟩ := fuzzyMatchResult_mono badges m1 m2 boost detected conf hint h12
      exact ⟨ha, hb', fun _ => hc'⟩
    · rw [if_neg hbid] at h1 h2
      rcases hfind : badges.find? (fun e => e.badge_id = bid) with _ | e
      · rw [hfind] at h1
        cases h1
      · rw [hfind] at h1 h2
        dsimp only at h1 h2
        have e1 := Option.some.inj h1
        have e2 := Option.some.inj h2
        subst e1
        subst e2
        refine ⟨rfl, fun _ => rfl, fun hn => ?_⟩
        cases hn

/-- Witness for C7 (amended) at thresholds 0 ≤ 80 on a one-entry catalog. -/
theorem threshold_monotone_w :
    (⟨[], [], pstr "zzz", 0, 3/10, false, none⟩ : BadgeMatch).match_score
        = (⟨[], [], pstr "zzz", 0, 3/10, false, none⟩ : BadgeMatch).match_score ∧
    ((⟨[], [], pstr "zzz", 0, 3/10, false, none⟩ : BadgeMatch).matched = true →
      (⟨[], [], pstr "zzz", 0, 3/10, false, none⟩ : BadgeMatch).matched = true) ∧
    (checkAbbreviation (buildAbbreviationMap [⟨pstr "b1", pstr "aaa", none⟩])
        (pstr "zzz") = none →
      (⟨[], [], pstr "zzz", 0, 3/10, false, none⟩ : BadgeMatch).matched = true →
      (0 : ℚ) ≤ (⟨[], [], pstr "zzz", 0, 3/10, false, none⟩ : BadgeMatch).match_score) :=
  threshold_monotone [⟨pstr "b1", pstr "aaa", none⟩] 0 80 5 (pstr "zzz") (3/4) none
    (by norm_num) _ _ (by with_unfolding_all rfl) (by with_unfolding_all rfl)

/-! ## C5: normalization idempotence -/

/-- ASCII lowercasing is idempotent. -/
theorem lowerChar_idem (c : Char) : lowerChar (lowerChar c) = lowerChar c := by
  by_cases h : 65 ≤ c.toNat ∧ c.toNat ≤ 90
  · have hin : lowerChar c = Char.ofNat (c.toNat + 32) := by
      unfold lowerChar
      rw [if_pos h]
    rw [hin]
    obtain ⟨h1, h2⟩ := h
    revert h1 h2
    generalize c.toNat = n
    intro h1 h2
    interval_cases n <;> decide
  · have hc : lowerChar c = c := by
      unfold lowerChar
      rw [if_neg h]
    rw [hc, hc]

/-- Characters of a `replaceListF` result come from the replacement string or
the input. -/
theorem mem_replaceListF (old new : PyStr) (fuel : Nat) :
    ∀ l c, c ∈ replaceListF old new fuel l → c ∈ new ∨ c ∈ l := by
  induction fuel with
  | zero =>
    intro l c hc
    cases l with
    | nil => cases hc
    | cons x xs => exact Or.inr hc
  | succ fuel ih =>
    intro l c hc
    cases l with
    | nil => cases hc
    | cons x xs =>
      cases old with
      | nil => exact Or.inr hc
      | cons o os =>
        simp only [replaceListF] at hc
        by_cases hp : (o :: os).isPrefixOf (x :: xs)
        · rw [if_pos hp] at hc
          rcases List.mem_append.mp hc with h1 | h1
          · exact Or.inl h1
          · rcases ih _ _ h1 with h2 | h2
            · exact Or.inl h2
            · exact Or.inr (List.mem_of_mem_drop h2)
        · rw [if_neg hp] at hc
          rcases List.mem_cons.mp hc with h1 | h1
          · exact Or.inr (h1 ▸ List.mem_cons_self x xs)
          · rcases ih _ _ h1 with h2 | h2
            · exact Or.inl h2
            · exact Or.inr (List.mem_cons_of_mem x h2)

/-- Characters of an `applyReplacements` result come from some replacement
string of the table or from the input. -/
theorem mem_applyReplacements (l : PyStr) (c : Char)
    (hc : c ∈ applyReplacements l) :
    (∃ p ∈ replacementTable, c ∈ p.2) ∨ c ∈ l := by
  suffices h : ∀ (tbl : List (PyStr × PyStr)) (l : PyStr),
      c ∈ tbl.foldl (fun acc p => replaceList p.1 p.2 acc) l →
      (∃ p ∈ tbl, c ∈ p.2) ∨ c ∈ l from h replacementTable l hc
  intro tbl
  induction tbl with
  | nil => exact fun l h => Or.inr h
  | cons p ps ih =>
    intro l h
    rw [List.foldl_cons] at h
    rcases ih _ h with h1 | h1
    · obtain ⟨q, hq, hcq⟩ := h1
      exact Or.inl ⟨q, List.mem_cons_of_mem p hq, hcq⟩
    · rcases mem_replaceListF p.1 p.2 _ _ _ h1 with h2 | h2
      · exact Or.inl ⟨p, List.mem_cons_self p ps, h2⟩
      · exact Or.inr h2

/-- `replace` is the identity when the pattern does not occur. -/
theorem replaceListF_id (old new : PyStr) (fuel : Nat) :
    ∀ l, containsSub old l = false → replaceListF old new fuel l = l := by
  induction fuel with
  | zero =>
    intro l _
    cases l with
    | nil => rfl
    | cons x xs => rfl
  | succ fuel ih =>
    intro l hl
    cases l with
    | nil => rfl
    | cons x xs =>
      unfold containsSub at hl
      rw [Bool.or_eq_false_iff] at hl
      cases old with
      | nil => rfl
      | cons o os =>
        simp only [replaceListF]
        rw [if_neg (by simp [hl.1])]
        rw [ih xs hl.2]

/-- `applyReplacements` is the identity when no table key occurs. -/
theorem applyReplacements_id (t : PyStr)
    (h : ∀ p ∈ replacementTable, containsSub p.1 t = false) :
    applyReplacements t = t := by
  suffices haux : ∀ (tbl : List (PyStr × PyStr)) (t : PyStr),
      (∀ p ∈ tbl, containsSub p.1 t = false) →
      tbl.foldl (fun acc p => replaceList p.1 p.2 acc) t = t from
    haux replacementTable t h
  intro tbl
  induction tbl with
  | nil => exact fun t _ => rfl
  | cons p ps ih =>
    intro t ht
    rw [List.foldl_cons]
    have hstep : replaceList p.1 p.2 t = t :=
      replaceListF_id p.1 p.2 t.length t (ht p (List.mem_cons_self p ps))
    rw [hstep]
    exact ih t (fun q hq => ht q (List.mem_cons_of_mem p hq))

/-- Words produced by the whitespace split are non-empty and free of
whitespace. -/
theorem pySplitWsF_words (fuel : Nat) :
    ∀ l w, w ∈ pySplitWsF fuel l → w ≠ [] ∧ ∀ c ∈ w, isPySpace c = false := by
  induction fuel with
  | zero =>
    intro l w hw
    cases l with
    | nil => cases hw
    | cons x xs => cases hw
  | succ fuel ih =>
    intro l w hw
    cases l with
    | nil => cases hw
    | cons x xs =>
      simp only [pySplitWsF] at hw
      by_cases hx : isPySpace x
      · rw [if_pos (by simp [hx])] at hw
        exact ih _ _ hw
      · rw [if_neg (by simp [hx])] at hw
        rcases List.mem_cons.mp hw with h1 | h1
        · subst h1
          refine ⟨by simp, ?_⟩
          intro c hc
          rcases List.mem_cons.mp hc with h2 | h2
          · rw [h2]
            exact Bool.eq_false_iff.mpr hx
          · have := List.mem_takeWhile_imp h2
            simpa using this
        · exact ih _ _ h1

/-- Characters of a split word come from the input. -/
theorem pySplitWsF_word_subset (fuel : Nat) :
    ∀ l w, w ∈ pySplitWsF fuel l → ∀ c ∈ w, c ∈ l := by
  induction fuel with
  | zero =>
    intro l w hw
    cases l with
    | nil => cases hw
    | cons x xs => cases hw
  | succ fuel ih =>
    intro l w hw c hc
    cases l with
    | nil => cases hw
    | cons x xs =>
      simp only [pySplitWsF] at hw
      by_cases hx : isPySpace x
      · rw [if_pos (by simp [hx])] at hw
        exact List.mem_cons_of_mem x (ih _ _ hw c hc)
      · rw [if_neg (by simp [hx])] at hw
        rcases List.mem_cons.mp hw with h1 | h1
        · subst h1
          rcases List.mem_cons.mp hc with h2 | h2
          · rw [h2]
            exact List.mem_cons_self x xs
          · exact List.mem_cons_of_mem x
              ((List.takeWhile_prefix (fun d => !isPySpace d)).sublist.subset h2)
        · exact List.mem_cons_of_mem x
            (ih _ _ h1 c hc |> fun h =>
              (List.dropWhile_suffix (fun d => !isPySpace d)).sublist.subset h)

/-- Characters of a space-join are spaces or characters of some word. -/
theorem mem_joinSpace (c : Char) :
    ∀ ws : List PyStr, c ∈ joinSpace ws → c = ' ' ∨ ∃ w ∈ ws, c ∈ w := by
  intro ws
  induction ws with
  | nil => intro h; cases h
  | cons w ws ih =>
    intro h
    cases ws with
    | nil =>
      right
      exact ⟨w, List.mem_cons_self w [], h⟩
    | cons w2 ws2 =>
      rw [show joinSpace (w :: w2 :: ws2) = w ++ ' ' :: joinSpace (w2 :: ws2) from rfl] at h
      rcases List.mem_append.mp h with h1 | h1
      · exact Or.inr ⟨w, List.mem_cons_self w _, h1⟩
      · rcases List.mem_cons.mp h1 with h2 | h2
        · exact Or.inl h2
        · rcases ih h2 with h3 | ⟨w', hw', hcw'⟩
          · exact Or.inl h3
          · exact Or.inr ⟨w', List.mem_cons_of_mem w hw', hcw'⟩

/-- `takeWhile` of an all-true list is the list. -/
theorem takeWhile_all {p : Char → Bool} :
    ∀ l : PyStr, (∀ x ∈ l, p x = true) → List.takeWhile p l = l := by
  intro l
  induction l with
  | nil => intro _; rfl
  | cons x xs ih =>
    intro h
    have hx := h x (List.mem_cons_self x xs)
    simp [List.takeWhile_cons, hx, ih (fun y hy => h y (List.mem_cons_of_mem x hy))]

/-- `dropWhile` of an all-true list is empty. -/
theorem dropWhile_all {p : Char → Bool} :
    ∀ l : PyStr, (∀ x ∈ l, p x = true) → List.dropWhile p l = [] := by
  intro l
  induction l with
  | nil => intro _; rfl
  | cons x xs ih =>
    intro h
    have hx := h x (List.mem_cons_self x xs)
    simp [List.dropWhile_cons, hx, ih (fun y hy => h y (List.mem_cons_of_mem x hy))]

/-- `takeWhile` stops exactly at the first failing element. -/
theorem takeWhile_append_stop {p : Char → Bool} (y : Char) (zs : PyStr)
    (hy : p y = false) :
    ∀ xs : PyStr, (∀ x ∈ xs, p x = true) →
      List.takeWhile p (xs ++ y :: zs) = xs := by
  intro xs
  induction xs with
  | nil =>
    intro _
    simp [List.takeWhile_cons, hy]
  | cons x xs ih =>
    intro h
    have hx := h x (List.mem_cons_self x xs)
    simp [List.takeWhile_cons, hx, ih (fun z hz => h z (List.mem_cons_of_mem x hz))]

/-- `dropWhile` drops exactly up to the first failing element. -/
theorem dropWhile_append_stop {p : Char → Bool} (y : Char) (zs : PyStr)
    (hy : p y = false) :
    ∀ xs : PyStr, (∀ x ∈ xs, p x = true) →
      List.dropWhile p (xs ++ y :: zs) = y :: zs := by
  intro xs
  induction xs with
  | nil =>
    intro _
    simp [List.dropWhile_cons, hy]
  | cons x xs ih =>
    intro h
    have hx := h x (List.mem_cons_self x xs)
    simp [List.dropWhile_cons, hx, ih (fun z hz => h z (List.mem_cons_of_mem x hz))]

/-- Splitting a space-join of non-empty whitespace-free words recovers the
words. -/
theorem pySplitWsF_joinSpace (ws : List PyStr)
    (hws : ∀ w ∈ ws, w ≠ [] ∧ ∀ c ∈ w, isPySpace c = false) :
    ∀ fuel, (joinSpace ws).length ≤ fuel → pySplitWsF fuel (joinSpace ws) = ws := by
  induction ws with
  | nil =>
    intro fuel _
    cases fuel <;> rfl
  | cons w ws ih =>
    intro fuel hfuel
    obtain ⟨hwne, hwch⟩ := hws w (List.mem_cons_self w ws)
    obtain ⟨c, w', rfl⟩ : ∃ c w', w = c :: w' := by
      cases w with
      | nil => exact absurd rfl hwne
      | cons c w' => exact ⟨c, w', rfl⟩
    have hcns : isPySpace c = false := hwch c (List.mem_cons_self c w')
    have hw'tr : ∀ x ∈ w', (fun d => !isPySpace d) x = true := by
      intro x hx
      simp [hwch x (List.mem_cons_of_mem c hx)]
    cases ws with
    | nil =>
      cases fuel with
      | zero => simp [joinSpace] at hfuel
      | succ f =>
        show pySplitWsF (f + 1) (c :: w') = [c :: w']
        simp only [pySplitWsF]
        rw [if_neg (by simp [hcns])]
        rw [takeWhile_all w' hw'tr, dropWhile_all w' hw'tr]
        cases f <;> rfl
    | cons w2 ws2 =>
      have hjoin : joinSpace ((c :: w') :: w2 :: ws2)
          = (c :: w') ++ ' ' :: joinSpace (w2 :: ws2) := rfl
      rw [hjoin] at hfuel ⊢
      cases fuel with
      | zero => simp at hfuel
      | succ f =>
        simp only [pySplitWsF, List.cons_append, List.append_eq]
        rw [if_neg (by simp [hcns])]
        rw [takeWhile_append_stop ' ' (joinSpace (w2 :: ws2)) (by decide) w' hw'tr]
        rw [dropWhile_append_stop ' ' (joinSpace (w2 :: ws2)) (by decide) w' hw'tr]
        cases f with
        | zero =>
          exfalso
          simp only [List.cons_append, List.length_cons, List.length_append] at hfuel
          omega
        | succ f2 =>
          show ((c :: w') :: pySplitWsF (f2 + 1) (' ' :: joinSpace (w2 :: ws2))) = _
          simp only [pySplitWsF]
          rw [if_pos (by decide)]
          have hlen : (joinSpace (w2 :: ws2)).length ≤ f2 := by
            simp only [List.cons_append, List.length_cons, List.length_append] at hfuel
            omega
          rw [ih (fun v hv => hws v (List.mem_cons_of_mem _ hv)) f2 hlen]

/-- Collapsing whitespace is idempotent. -/
theorem collapseWs_idem (l : PyStr) : collapseWs (collapseWs l) = collapseWs l := by
  have hw : ∀ w ∈ pySplitWs l, w ≠ [] ∧ ∀ c ∈ w, isPySpace c = false :=
    fun w hw => pySplitWsF_words l.length l w hw
  have hsplit := pySplitWsF_joinSpace (pySplitWs l) hw
    (joinSpace (pySplitWs l)).length le_rfl
  show joinSpace (pySplitWs (joinSpace (pySplitWs l))) = joinSpace (pySplitWs l)
  unfold pySplitWs at hsplit ⊢
  rw [hsplit]

/-- Characters of a whitespace collapse are spaces or input characters. -/
theorem mem_collapseWs (l : PyStr) (c : Char) (hc : c ∈ collapseWs l) :
    c = ' ' ∨ c ∈ l := by
  rcases mem_joinSpace c (pySplitWs l) hc with h | ⟨w, hw, hcw⟩
  · exact Or.inl h
  · exact Or.inr (pySplitWsF_word_subset l.length l w hw c hcw)

/-- Every character of a normalized name is lowercase-fixed and a word/space
character. -/
theorem normalize_chars (s : PyStr) :
    ∀ c ∈ normalizeName s, lowerChar c = c ∧ keepChar c = true := by
  intro c hc
  unfold normalizeName at hc
  rcases mem_collapseWs _ _ hc with hsp | hc2
  · subst hsp
    exact ⟨by decide, by decide⟩
  · have hkeep : keepChar c = true := List.of_mem_filter hc2
    have hc3 : c ∈ applyReplacements (pyLower s) := List.mem_of_mem_filter hc2
    rcases mem_applyReplacements _ _ hc3 with ⟨p, hp, hcp⟩ | hlow
    · have htab : ∀ p ∈ replacementTable, ∀ c ∈ p.2, lowerChar c = c := by decide
      exact ⟨htab p hp c hcp, hkeep⟩
    · obtain ⟨c0, _, rfl⟩ := List.mem_map.mp hlow
      exact ⟨lowerChar_idem c0, hkeep⟩

/-- Counterexample to <b>C5</b> as stated: collapsing the double space in
`"stage  1"` exposes the replacement key `"stage 1"`, so a second
normalization rewrites the result again. -/
theorem normalize_idem_cex :
    normalizeName (pstr "stage  1") = pstr "stage 1" ∧
    normalizeName (normalizeName (pstr "stage  1")) = pstr "1" ∧
    normalizeName (normalizeName (pstr "stage  1")) ≠ normalizeName (pstr "stage  1") :=
  ⟨by decide, by decide, by decide⟩

/-- <b>C5 (amended)</b>: `normalize` is idempotent on every input whose
normalized form contains no replacement key; in general a second application
can differ, because stripping punctuation or collapsing whitespace can expose
a key (see the counterexample). -/
theorem normalize_idem (s : PyStr)
    (h : ∀ p ∈ replacementTable, containsSub p.1 (normalizeName s) = false) :
    normalizeName (normalizeName s) = normalizeName s := by
  have hch := normalize_chars s
  have hlow : pyLower (normalizeName s) = normalizeName s := by
    unfold pyLower
    have hmc : (normalizeName s).map lowerChar = (normalizeName s).map id :=
      List.map_congr_left (fun c hc => (hch c hc).1)
    rw [hmc, List.map_id]
  have hrep : applyReplacements (normalizeName s) = normalizeName s :=
    applyReplacements_id _ h
  have hfil : (normalizeName s).filter keepChar = normalizeName s :=
    List.filter_eq_self.mpr (fun c hc => (hch c hc).2)
  show collapseWs ((applyReplacements (pyLower (normalizeName s))).filter keepChar)
      = normalizeName s
  rw [hlow, hrep, hfil]
  unfold normalizeName
  exact collapseWs_idem _

/-- Witness for C5 (amended) on a key-free input. -/
theorem normalize_idem_w :
    normalizeName (normalizeName (pstr "Hello, World!")) =
      normalizeName (pstr "Hello, World!") :=
  normalize_idem (pstr "Hello, World!") (by decide)

end ScoutsInv
